import Mathlib

/-!
# Moodmap (`src/app.js`): entry store and statistics engine

A shallow embedding of the mood-journal script and the properties of its
entry log, its persistence cycle and its forecast heuristic.

Conventions of the embedding.

* JavaScript strings are modelled by `String` (sequences of Unicode scalar
  values).  A string holding an unpaired UTF-16 surrogate has no image here;
  the JSON reader reports it separately (`ParseFail.unpaired`).
* `localStorage` is a list of key/value pairs; the quota of the storage medium
  is not modelled.
* The browser facilities the script calls (`JSON.parse`, `JSON.stringify`,
  `String.prototype.trim`, `String.prototype.includes`, property lookup and
  enumeration on a plain object, `Array.prototype.sort`) are written out as
  functions following ECMA-262 / ECMA-404.
* `new Date(s).getHours()` and `new Date(s).getDay()` depend on the time zone
  of the browser; they are a parameter (`Clock`) of the forecast.
-/

namespace Moodmap

/-! ## JSON text (ECMA-404) -/

/-- JSON values as produced by `JSON.parse`.  A number is kept as the exact
decimal `± mant × 10 ^ exp` written in the text. -/
inductive JSON where
  | null
  | bool (b : Bool)
  | num (neg : Bool) (mant : Nat) (exp : Int)
  | str (s : String)
  | arr (items : List JSON)
  | obj (props : List (String × JSON))

/-- Why the reader did not deliver a value: the text is not JSON (`JSON.parse`
throws a `SyntaxError`), or it holds a `\u` escape for an unpaired surrogate,
a string this development cannot represent. -/
inductive ParseFail where
  | malformed
  | unpaired
  deriving DecidableEq, Repr

/-- JSON white space: space, tab, line feed, carriage return. -/
def isWs (c : Char) : Bool :=
  c == ' ' || c == '\t' || c == '\n' || c == '\r'

/-- Drops leading JSON white space. -/
def skipWs : List Char → List Char
  | [] => []
  | c :: cs => if isWs c then skipWs cs else c :: cs

/-- Value of a hexadecimal digit, either case. -/
def hexVal (c : Char) : Option Nat :=
  if '0' ≤ c ∧ c ≤ '9' then some (c.toNat - 48)
  else if 'a' ≤ c ∧ c ≤ 'f' then some (c.toNat - 87)
  else if 'A' ≤ c ∧ c ≤ 'F' then some (c.toNat - 55)
  else none

/-- The four hexadecimal digits of a `\u` escape, as a code unit. -/
def hex4 (a b c d : Char) : Option Nat :=
  match hexVal a, hexVal b, hexVal c, hexVal d with
  | some x, some y, some z, some w => some (((x * 16 + y) * 16 + z) * 16 + w)
  | _, _, _, _ => none

/-- A code unit in the high (leading) surrogate range. -/
def isHighSurrogate (n : Nat) : Bool := 0xD800 ≤ n && n ≤ 0xDBFF

/-- A code unit in the low (trailing) surrogate range. -/
def isLowSurrogate (n : Nat) : Bool := 0xDC00 ≤ n && n ≤ 0xDFFF

/-- The character a two-character escape stands for. -/
def unescape (e : Char) : Option Char :=
  if e = '"' then some '"'
  else if e = '\\' then some '\\'
  else if e = '/' then some '/'
  else if e = 'b' then some '\x08'
  else if e = 'f' then some '\x0c'
  else if e = 'n' then some '\n'
  else if e = 'r' then some '\r'
  else if e = 't' then some '\t'
  else none

/-- Puts a decoded character in front of the characters read after it. -/
def consChar (c : Char) :
    Except ParseFail (List Char × List Char) → Except ParseFail (List Char × List Char)
  | .ok (cs, rest) => .ok (c :: cs, rest)
  | .error e => .error e

/-- The second half of a surrogate pair: a `\u` escape for a low surrogate,
combined with the high surrogate `hi` into one character. -/
def parseLowSurrogate (hi : Nat) : List Char → Except ParseFail (Char × List Char)
  | s :: u :: a :: b :: c :: d :: rest =>
    if s = '\\' ∧ u = 'u' then
      match hex4 a b c d with
      | none => .error .malformed
      | some lo =>
        if isLowSurrogate lo then
          .ok (Char.ofNat (0x10000 + (hi - 0xD800) * 0x400 + (lo - 0xDC00)), rest)
        else .error .unpaired
    else .error .unpaired
  | _ => .error .unpaired

/-- The four digits of a `\u` escape and the character they denote. -/
def parseUnicode : List Char → Except ParseFail (Char × List Char)
  | a :: b :: c :: d :: rest =>
    match hex4 a b c d with
    | none => .error .malformed
    | some hi =>
      if isHighSurrogate hi then parseLowSurrogate hi rest
      else if isLowSurrogate hi then .error .unpaired
      else .ok (Char.ofNat hi, rest)
  | _ => .error .malformed

/-- The escape after a backslash: the character it denotes and the rest. -/
def parseEscape : List Char → Except ParseFail (Char × List Char)
  | [] => .error .malformed
  | e :: rest =>
    if e = 'u' then parseUnicode rest
    else
      match unescape e with
      | some ch => .ok (ch, rest)
      | none => .error .malformed

/-- Reads the characters of a JSON string up to and including the closing
quote (the opening quote is already consumed): unescaped characters from
U+0020 on and escapes.  `fuel` bounds the number of characters delivered. -/
def parseCharsFuel : Nat → List Char → Except ParseFail (List Char × List Char)
  | 0, _ => .error .malformed
  | _ + 1, [] => .error .malformed
  | fuel + 1, c :: rest =>
    if c = '"' then .ok ([], rest)
    else if c = '\\' then
      match parseEscape rest with
      | .error e => .error e
      | .ok (ch, rest2) => consChar ch (parseCharsFuel fuel rest2)
    else if c.toNat < 0x20 then .error .malformed
    else consChar c (parseCharsFuel fuel rest)

/-- The characters of a JSON string.  Every character delivered uses up at
least one character of the text, so the length of the text is fuel enough
(`parseCharsFuel_enough`). -/
def parseChars (cs : List Char) : Except ParseFail (List Char × List Char) :=
  parseCharsFuel cs.length cs

/-- Value of a run of decimal digits. -/
def digitsVal (ds : List Char) : Nat :=
  ds.foldl (fun n d => 10 * n + (d.toNat - 48)) 0

/-- Optional fraction part of a JSON number: a dot and at least one digit. -/
def parseFrac : List Char → Except ParseFail (List Char × List Char)
  | '.' :: r =>
    match r.span Char.isDigit with
    | ([], _) => .error .malformed
    | (ds, r2) => .ok (ds, r2)
  | cs => .ok ([], cs)

/-- Digits of an exponent, with the sign already read. -/
def parseExpDigits (sign : Int) (cs : List Char) : Except ParseFail (Int × List Char) :=
  match cs.span Char.isDigit with
  | ([], _) => .error .malformed
  | (ds, r) => .ok (sign * (digitsVal ds : Int), r)

/-- Optional exponent part of a JSON number. -/
def parseExp : List Char → Except ParseFail (Int × List Char)
  | 'e' :: '+' :: r => parseExpDigits 1 r
  | 'e' :: '-' :: r => parseExpDigits (-1) r
  | 'e' :: r => parseExpDigits 1 r
  | 'E' :: '+' :: r => parseExpDigits 1 r
  | 'E' :: '-' :: r => parseExpDigits (-1) r
  | 'E' :: r => parseExpDigits 1 r
  | cs => .ok (0, cs)

/-- Fraction and exponent after the integer digits `ds` of a number. -/
def parseNumberTail (neg : Bool) (ds : List Char) (cs : List Char) :
    Except ParseFail (JSON × List Char) :=
  match parseFrac cs with
  | .error e => .error e
  | .ok (fs, r1) =>
    match parseExp r1 with
    | .error e => .error e
    | .ok (e, r2) => .ok (.num neg (digitsVal (ds ++ fs)) (e - (fs.length : Int)), r2)

/-- Integer part of a JSON number (a single `0`, or digits not starting with
`0`), then its tail. -/
def parseUnsigned (neg : Bool) : List Char → Except ParseFail (JSON × List Char)
  | '0' :: r => parseNumberTail neg ['0'] r
  | c :: r =>
    if c.isDigit then
      match (c :: r).span Char.isDigit with
      | (ds, r2) => parseNumberTail neg ds r2
    else .error .malformed
  | [] => .error .malformed

/-- A JSON number. -/
def parseNumber : List Char → Except ParseFail (JSON × List Char)
  | '-' :: r => parseUnsigned true r
  | cs => parseUnsigned false cs

/-! ## Own properties of a plain object -/

/-- Writes own property `k`: an existing property keeps its place and takes the
new value, a new one is created after the others. -/
def setProp {α : Type} : List (String × α) → String → α → List (String × α)
  | [], k, v => [(k, v)]
  | (k0, v0) :: ps, k, v => if k0 = k then (k, v) :: ps else (k0, v0) :: setProp ps k v

/-- Reads own property `k`. -/
def getProp {α : Type} : List (String × α) → String → Option α
  | [], _ => none
  | (k0, v0) :: ps, k => if k0 = k then some v0 else getProp ps k

/-- The object `JSON.parse` builds from the members of an object text, in text
order: a repeated name overwrites the earlier value. -/
def mkObject (members : List (String × JSON)) : JSON :=
  .obj (members.foldl (fun o kv => setProp o kv.1 kv.2) [])

/-! ## The JSON reader -/

/-- Removes the characters `lit` from the front of a text, if they are
there. -/
def dropLiteral : List Char → List Char → Option (List Char)
  | [], cs => some cs
  | _ :: _, [] => none
  | l :: ls, c :: cs => if l = c then dropLiteral ls cs else none

/-- A keyword whose first character is already read. -/
def parseKeyword (tail : String) (v : JSON) (rest : List Char) :
    Except ParseFail (JSON × List Char) :=
  match dropLiteral tail.data rest with
  | some rest2 => .ok (v, rest2)
  | none => .error .malformed

mutual
/-- One JSON value, with leading white space.  `fuel` bounds the nesting and
the number of elements; `JSONparse` passes more than the text can use
(`parseValue_enough`). -/
def parseValue : Nat → List Char → Except ParseFail (JSON × List Char)
  | 0, _ => .error .malformed
  | fuel + 1, cs =>
    match skipWs cs with
    | [] => .error .malformed
    | c :: rest =>
      if c = '"' then
        match parseChars rest with
        | .ok (s, rest2) => .ok (.str (String.mk s), rest2)
        | .error e => .error e
      else if c = '[' then
        if (skipWs rest).head? = some ']' then .ok (.arr [], (skipWs rest).tail)
        else
          match parseElements fuel rest with
          | .ok (items, rest2) => .ok (.arr items, rest2)
          | .error e => .error e
      else if c = '{' then
        if (skipWs rest).head? = some '}' then .ok (.obj [], (skipWs rest).tail)
        else
          match parseMembers fuel rest with
          | .ok (members, rest2) => .ok (mkObject members, rest2)
          | .error e => .error e
      else if c = 'n' then parseKeyword "ull" .null rest
      else if c = 't' then parseKeyword "rue" (.bool true) rest
      else if c = 'f' then parseKeyword "alse" (.bool false) rest
      else parseNumber (c :: rest)
/-- The elements of a non-empty array, up to and including `]`. -/
def parseElements : Nat → List Char → Except ParseFail (List JSON × List Char)
  | 0, _ => .error .malformed
  | fuel + 1, cs =>
    match parseValue fuel cs with
    | .error e => .error e
    | .ok (v, rest) =>
      match skipWs rest with
      | [] => .error .malformed
      | c :: rest2 =>
        if c = ',' then
          match parseElements fuel rest2 with
          | .ok (vs, rest3) => .ok (v :: vs, rest3)
          | .error e => .error e
        else if c = ']' then .ok ([v], rest2)
        else .error .malformed
/-- The members of a non-empty object, up to and including `}`. -/
def parseMembers : Nat → List Char → Except ParseFail (List (String × JSON) × List Char)
  | 0, _ => .error .malformed
  | fuel + 1, cs =>
    match skipWs cs with
    | [] => .error .malformed
    | q :: rest =>
      if q = '"' then
        match parseChars rest with
        | .error e => .error e
        | .ok (k, rest1) =>
          match skipWs rest1 with
          | [] => .error .malformed
          | colon :: rest2 =>
            if colon = ':' then
              match parseValue fuel rest2 with
              | .error e => .error e
              | .ok (v, rest3) =>
                match skipWs rest3 with
                | [] => .error .malformed
                | c :: rest4 =>
                  if c = ',' then
                    match parseMembers fuel rest4 with
                    | .ok (ms, rest5) => .ok ((String.mk k, v) :: ms, rest5)
                    | .error e => .error e
                  else if c = '}' then .ok ([(String.mk k, v)], rest4)
                  else .error .malformed
            else .error .malformed
      else .error .malformed
end

/-- The function `JSON.parse` on a text: one value, white space around it and
nothing else.  A nested value costs two units of fuel and a further element
one, each after at least one more character of the text, so the fuel passed is
never used up (`parseValue_enough`). -/
def JSONparse (text : String) : Except ParseFail JSON :=
  match parseValue (2 * text.length + 2) text.data with
  | .error e => .error e
  | .ok (v, rest) =>
    match skipWs rest with
    | [] => .ok v
    | _ => .error .malformed

/-- Truth value of a JSON number: `ToBoolean` is false exactly when the text
denotes a double that is zero, that is when the decimal is `0` or is at most
`2 ^ (-1075)` in size, half the least subnormal, which rounds to zero. -/
def roundsToZero (mant : Nat) (exp : Int) : Bool :=
  mant == 0 || (decide (exp < 0) && decide (mant * 2 ^ 1075 ≤ 10 ^ exp.natAbs))

/-- The operation `ToBoolean` on a parsed value, as used by `||`. -/
def JSON.truthy : JSON → Bool
  | .null => false
  | .bool b => b
  | .num _ m e => !roundsToZero m e
  | .str s => s != ""
  | .arr _ => true
  | .obj _ => true

/-- Equality of results is decidable. -/
instance instDecidableEqExcept {ε α : Type} [DecidableEq ε] [DecidableEq α] :
    DecidableEq (Except ε α)
  | .ok a, .ok b => if h : a = b then isTrue (by rw [h]) else isFalse (fun h2 => h (by cases h2; rfl))
  | .error a, .error b =>
    if h : a = b then isTrue (by rw [h]) else isFalse (fun h2 => h (by cases h2; rfl))
  | .ok _, .error _ => isFalse (fun h => by cases h)
  | .error _, .ok _ => isFalse (fun h => by cases h)

/-! ## Data model -/

/-- One logged moment, the record built in `saveBtn.onclick`.  All four fields
are strings: `intensity` is the `value` of the range input. -/
structure MoodEntry where
  mood : String
  intensity : String
  note : String
  time : String
  deriving DecidableEq, Repr

/-- Errors the script can raise. -/
inductive JSError where
  | syntaxError
  | typeError
  deriving DecidableEq, Repr

/-! ## `JSON.stringify` on the log -/

/-- Lower-case hexadecimal digit. -/
def hexDigit (n : Nat) : Char :=
  if n < 10 then Char.ofNat (48 + n) else Char.ofNat (87 + n)

/-- The text of one character inside a quoted JSON string (`QuoteJSONString`). -/
def escapeChar (c : Char) : List Char :=
  if c = '"' then ['\\', '"']
  else if c = '\\' then ['\\', '\\']
  else if c = '\x08' then ['\\', 'b']
  else if c = '\x0c' then ['\\', 'f']
  else if c = '\n' then ['\\', 'n']
  else if c = '\r' then ['\\', 'r']
  else if c = '\t' then ['\\', 't']
  else if c.toNat < 0x20 then ['\\', 'u', '0', '0', hexDigit (c.toNat / 16), hexDigit (c.toNat % 16)]
  else [c]

/-- The escaped characters of a string. -/
def escapeChars : List Char → List Char
  | [] => []
  | c :: cs => escapeChar c ++ escapeChars cs

/-- A string as quoted JSON text. -/
def quoteJSON (s : String) : List Char :=
  '"' :: (escapeChars s.data ++ ['"'])

/-- The text of one entry: its four properties in creation order. -/
def entryText (e : MoodEntry) : List Char :=
  "\x7b\"mood\":".data ++ quoteJSON e.mood ++ ",\"intensity\":".data ++ quoteJSON e.intensity
    ++ ",\"note\":".data ++ quoteJSON e.note ++ ",\"time\":".data ++ quoteJSON e.time ++ ['}']

/-- The texts of the entries, separated by commas. -/
def elementsText : List MoodEntry → List Char
  | [] => []
  | [e] => entryText e
  | e :: es => entryText e ++ ',' :: elementsText es

/-- The call `JSON.stringify(moods)` on an array of entry records. -/
def JSONstringify (log : List MoodEntry) : String :=
  String.mk ('[' :: (elementsText log ++ [']']))

/-! ## State management (section 1 of the script) -/

/-- A parsed object read as an entry record: exactly the properties `mood`,
`intensity`, `note`, `time`, created in that order, all strings. -/
def toEntry : JSON → Option MoodEntry
  | .obj [(k1, .str m), (k2, .str i), (k3, .str n), (k4, .str t)] =>
    if k1 = "mood" ∧ k2 = "intensity" ∧ k3 = "note" ∧ k4 = "time" then some ⟨m, i, n, t⟩
    else none
  | _ => none

/-- A list of parsed values read as entry records. -/
def toEntries : List JSON → Option (List MoodEntry)
  | [] => some []
  | v :: vs =>
    match toEntry v, toEntries vs with
    | some e, some es => some (e :: es)
    | _, _ => none

/-- A parsed value read as a log. -/
def toLog : JSON → Option (List MoodEntry)
  | .arr items => toEntries items
  | _ => none

/-- What line 5 leaves behind.  `threw`: `JSON.parse` raised and the script
stopped.  `log es`: `moods` is the entry sequence `es`.  `outside`: the stored
text is not covered by the typed model (`moods` would hold a value that is not
a sequence of entry records, or a string with an unpaired surrogate); nothing
is stated about that case. -/
inductive LoadResult where
  | threw (e : JSError)
  | log (es : List MoodEntry)
  | outside
  deriving DecidableEq, Repr

/-- The key of the log in `localStorage`. -/
def STORAGE_KEY : String := "moodmap_data"

/-- The method `localStorage.getItem`, on the store as a list of key/value
pairs; `none` is `null`. -/
def getItem (localStorage : List (String × String)) (key : String) : Option String :=
  getProp localStorage key

/-- The method `localStorage.setItem`. -/
def setItem (localStorage : List (String × String)) (key value : String) :
    List (String × String) :=
  setProp localStorage key value

/-- The method `localStorage.removeItem`. -/
def removeItem (localStorage : List (String × String)) (key : String) :
    List (String × String) :=
  localStorage.filter (fun p => p.1 != key)

/-- Line 5: `JSON.parse(localStorage.getItem(STORAGE_KEY)) || []`.  An absent
key gives `null`, which `JSON.parse` reads as the text `null`. -/
def load (localStorage : List (String × String)) : LoadResult :=
  match JSONparse ((getItem localStorage STORAGE_KEY).getD "null") with
  | .error .malformed => .threw .syntaxError
  | .error .unpaired => .outside
  | .ok v =>
    match toLog (if v.truthy then v else .arr []) with
    | some es => .log es
    | none => .outside

/-- The mutable state of the page: the log, `localStorage`, the selected mood
and the two form fields. -/
structure State where
  moods : List MoodEntry
  localStorage : List (String × String)
  selectedMood : Option String
  sliderValue : String
  noteValue : String
  deriving DecidableEq, Repr

/-- White space and line terminators removed by `String.prototype.trim`. -/
def isTrimChar (c : Char) : Bool :=
  let n := c.toNat
  (9 ≤ n && n ≤ 13) || n == 0x20 || n == 0xA0 || n == 0x1680 || (0x2000 ≤ n && n ≤ 0x200A)
    || n == 0x2028 || n == 0x2029 || n == 0x202F || n == 0x205F || n == 0x3000 || n == 0xFEFF

/-- The method `String.prototype.trim`. -/
def trim (s : String) : String :=
  String.mk ((s.data.dropWhile isTrimChar).reverse.dropWhile isTrimChar).reverse

/-- The click handler of a mood item: `selectedMood = item.dataset.mood`
(`none` when the item has no `data-mood` attribute). -/
def selectMood (mood : Option String) (st : State) : State :=
  { st with selectedMood := mood }

/-- The message of the alert raised without a selected mood. -/
def pickMoodAlert : String := "Please pick a mood emoji!"

/-- The handler `saveBtn.onclick`; `now` is `new Date().toISOString()`.  Returns the
new state and the alert shown, if any. -/
def saveClick (now : String) (st : State) : State × Option String :=
  match st.selectedMood with
  | none => (st, some pickMoodAlert)
  | some m =>
    if m = "" then (st, some pickMoodAlert)
    else
      let newEntry : MoodEntry :=
        { mood := m, intensity := st.sliderValue, note := trim st.noteValue, time := now }
      let moods := newEntry :: st.moods
      ({ moods := moods,
         localStorage := setItem st.localStorage STORAGE_KEY (JSONstringify moods),
         selectedMood := none, sliderValue := "5", noteValue := "" }, none)

/-- The operation `append(mood, intensity, note)` of the entry store: the user
picks the mood, sets the slider, types the note and clicks save. -/
def append (mood : Option String) (intensity note now : String) (st : State) :
    State × Option String :=
  saveClick now { selectMood mood st with sliderValue := intensity, noteValue := note }

/-- The handler `clearBtn.onclick`; `confirmed` is the answer to the
`confirm` dialog. -/
def clearClick (confirmed : Bool) (st : State) : State :=
  if confirmed then
    { st with moods := [], localStorage := removeItem st.localStorage STORAGE_KEY }
  else st

/-- A run of `append` calls, oldest first, each with its own instant. -/
def appendAll : List (Option String × String × String × String) → State → State
  | [], st => st
  | (mood, intensity, note, now) :: calls, st =>
    appendAll calls (append mood intensity note now st).1

/-! ## Utilities (section 2 of the script) -/

/-- The method `String.prototype.includes` on lists of characters. -/
def includesChars : List Char → List Char → Bool
  | [], needle => needle.isEmpty
  | c :: cs, needle => needle.isPrefixOf (c :: cs) || includesChars cs needle

/-- The call `s.includes(needle)`. -/
def includes (s needle : String) : Bool :=
  includesChars s.data needle.data

/-- Advice shown for a falsy argument. -/
def adviceKeepTracking : String := "Keep tracking to get personalized advice!"

/-- Energy-directed advice. -/
def adviceHappy : String :=
  "You're on a roll! Take this energy to tackle your hardest task today."

/-- Rest advice. -/
def adviceSad : String :=
  "Energy seems low lately. Remember that it's okay to rest and reset."

/-- De-escalation advice. -/
def adviceAngry : String := "High intensity detected. Try a 5-minute breathing exercise."

/-- Burnout-warning advice. -/
def adviceTired : String := "Burnout warning. Your body is asking for a real break."

/-- Consistency-encouragement advice. -/
def adviceConsistency : String :=
  "Consistency is key! You're building a great habit of self-awareness."

/-- The function `getAdvice` on a string argument; `!mood` holds for the empty
string. -/
def getAdvice (mood : String) : String :=
  if mood = "" then adviceKeepTracking
  else if includes mood "Happy" then adviceHappy
  else if includes mood "Sad" then adviceSad
  else if includes mood "Angry" then adviceAngry
  else if includes mood "Tired" then adviceTired
  else adviceConsistency

/-! ## The counting object -/

/-- A value held by the object `counts`: a number, or a string that is not
numeric.  The latter arises when the label names a function inherited from
`Object.prototype`: the function is truthy, and adding `1` to it yields its
source text followed by `1`; `ones` is the number of `1` appended so far. -/
inductive CountVal where
  | count (n : Nat)
  | text (ones : Nat)
  deriving DecidableEq, Repr

/-- Names of the function-valued properties every plain object inherits from
`Object.prototype` (ECMA-262, with Annex B). -/
def protoFunctions : List String :=
  ["constructor", "hasOwnProperty", "isPrototypeOf", "propertyIsEnumerable",
   "toLocaleString", "toString", "valueOf", "__defineGetter__", "__defineSetter__",
   "__lookupGetter__", "__lookupSetter__"]

/-- Property names for which a lookup on the empty object `{}` finds something:
the inherited functions and the accessor `__proto__`. -/
def inheritedNames : List String := "__proto__" :: protoFunctions

/-- One step of the counting loop, `counts[k] = (counts[k] || 0) + 1`.
An own number is incremented and an own string gets another `1`.  Without an own
property the lookup goes to `Object.prototype`: for `__proto__` the getter
returns an object, the sum is a string and the inherited setter ignores a
string, so nothing is stored; for an inherited function the sum is a string,
stored as a new own property; otherwise the lookup is `undefined` and `1` is
stored. -/
def bump (counts : List (String × CountVal)) (k : String) : List (String × CountVal) :=
  match getProp counts k with
  | some (.count n) => setProp counts k (.count (n + 1))
  | some (.text j) => setProp counts k (.text (j + 1))
  | none =>
    if k = "__proto__" then counts
    else if k ∈ protoFunctions then setProp counts k (.text 1)
    else setProp counts k (.count 1)

/-- The counting loop of `renderChart` and `getTopMood`:
`arr.forEach(m => counts[m.mood] = (counts[m.mood] || 0) + 1)` from `{}`. -/
def moodCounts (entries : List MoodEntry) : List (String × CountVal) :=
  entries.foldl (fun counts m => bump counts m.mood) []

/-- The array index a property name denotes, if any: the canonical decimal
text of an integer below `2 ^ 32 - 1`. -/
def arrayIndex (k : String) : Option Nat :=
  match k.data with
  | [] => none
  | ['0'] => some 0
  | c :: cs =>
    if c ≠ '0' ∧ (c :: cs).all Char.isDigit ∧ digitsVal (c :: cs) < 4294967295 then
      some (digitsVal (c :: cs))
    else none

/-- Inserts a property among properties sorted by array index. -/
def insertIndexed {α : Type} (p : String × α) : List (String × α) → List (String × α)
  | [] => [p]
  | q :: qs =>
    if (arrayIndex p.1).getD 0 ≤ (arrayIndex q.1).getD 0 then p :: q :: qs
    else q :: insertIndexed p qs

/-- Properties sorted by ascending array index. -/
def sortIndexed {α : Type} : List (String × α) → List (String × α)
  | [] => []
  | p :: ps => insertIndexed p (sortIndexed ps)

/-- The order of `Object.keys`, `Object.values` and `Object.entries`
(`OrdinaryOwnPropertyKeys`): array indices ascending, then the other names in
order of creation. -/
def ownEntries {α : Type} (o : List (String × α)) : List (String × α) :=
  sortIndexed (o.filter (fun p => (arrayIndex p.1).isSome))
    ++ o.filter (fun p => !(arrayIndex p.1).isSome)

/-- The comparator `(a, b) => b[1] - a[1]`; a difference involving a
non-numeric string is `NaN`, which `sort` takes as `0`. -/
def compareCounts (a b : String × CountVal) : Int :=
  match b.2, a.2 with
  | .count y, .count x => (y : Int) - (x : Int)
  | _, _ => 0

/-- Stable insertion of `x` in front of a sorted list. -/
def insertSorted {α : Type} (cmp : α → α → Int) (x : α) : List α → List α
  | [] => [x]
  | y :: ys => if cmp x y ≤ 0 then x :: y :: ys else y :: insertSorted cmp x ys

/-- The method `Array.prototype.sort` with a comparator, as a stable insertion
sort.  For a consistent comparator every conforming `sort` gives this order;
for an inconsistent one (counts mixed with non-numeric strings) the order is
implementation-defined and this is only one of the possible outcomes. -/
def jsSort {α : Type} (cmp : α → α → Int) : List α → List α
  | [] => []
  | x :: xs => insertSorted cmp x (jsSort cmp xs)

/-! ## Forecast logic (section 4 of the script) -/

/-- The time-zone dependent readings `new Date(s).getHours()` and
`new Date(s).getDay()`; `none` stands for `NaN` (invalid date). -/
structure Clock where
  getHours : String → Option Nat
  getDay : String → Option Nat

/-- Filter of `morningMoods`: `hr >= 5 && hr < 12`. -/
def isMorning (clock : Clock) (m : MoodEntry) : Bool :=
  match clock.getHours m.time with
  | some hr => decide (5 ≤ hr) && decide (hr < 12)
  | none => false

/-- Filter of `nightMoods`: `hr >= 18 || hr < 5`. -/
def isNight (clock : Clock) (m : MoodEntry) : Bool :=
  match clock.getHours m.time with
  | some hr => decide (18 ≤ hr) || decide (hr < 5)
  | none => false

/-- Filter of `weekendMoods`: `day === 0 || day === 6`. -/
def isWeekend (clock : Clock) (m : MoodEntry) : Bool :=
  match clock.getDay m.time with
  | some day => day == 0 || day == 6
  | none => false

/-- The local function `getTopMood`.  When no own property was stored
`Object.entries(counts)` is empty and `[0][0]` raises a `TypeError`.  When the
counting object holds non-numeric strings next to different numbers, the result
depends on the `sort` of the browser (see `jsSort`). -/
def getTopMood (arr : List MoodEntry) : Except JSError String :=
  if arr.length = 0 then .ok "N/A"
  else
    match jsSort compareCounts (ownEntries (moodCounts arr)) with
    | [] => .error .typeError
    | top :: _ => .ok top.1

/-- The constant `timeVibe` of `generateForecast`. -/
def timeVibe (clock : Clock) (moods : List MoodEntry) : String :=
  if (moods.filter (isNight clock)).length ≤ (moods.filter (isMorning clock)).length then
    "Early Bird 🌅"
  else "Night Owl 🦉"

/-- What `generateForecast` puts into the forecast card: the locked text with
the number of entries still needed (class `thinking` set), or the grid with
schedule type, weekend vibe and advice. -/
inductive Forecast where
  | locked (remaining : Nat)
  | ready (scheduleType weekendVibe advice : String)
  deriving DecidableEq, Repr

/-- The function `generateForecast`, with the two elements of the card present
in the page. -/
def generateForecast (clock : Clock) (moods : List MoodEntry) : Except JSError Forecast :=
  if moods.length < 5 then .ok (.locked (5 - moods.length))
  else
    match getTopMood (moods.filter (isWeekend clock)) with
    | .error e => .error e
    | .ok weekendVibe =>
      match getTopMood moods with
      | .error e => .error e
      | .ok overallVibe => .ok (.ready (timeVibe clock moods) weekendVibe (getAdvice overallVibe))

/-! ## A concrete clock: a browser in the UTC zone -/

/-- Digit value of a character, if it is a digit. -/
def digitOf (c : Char) : Option Nat :=
  if c.isDigit then some (c.toNat - 48) else none

/-- Days in a month of the Gregorian calendar. -/
def daysInMonth (y m : Nat) : Nat :=
  if m = 2 then (if (y % 4 = 0 ∧ y % 100 ≠ 0) ∨ y % 400 = 0 then 29 else 28)
  else if m = 4 ∨ m = 6 ∨ m = 9 ∨ m = 11 then 30
  else 31

/-- Month offsets of the day-of-week congruence. -/
def monthOffset (m : Nat) : Nat :=
  [0, 3, 2, 5, 0, 3, 5, 1, 4, 6, 2, 4].getD (m - 1) 0

/-- Day of the week of a Gregorian date, `0` for Sunday. -/
def weekday (y m d : Nat) : Nat :=
  let y1 := if m < 3 then y + 399 else y + 400
  (y1 + y1 / 4 - y1 / 100 + y1 / 400 + monthOffset m + d) % 7

/-- Year, month, day and hour of a string in the format of `toISOString`,
`YYYY-MM-DDTHH:mm:ss.sssZ`. -/
def isoFields (s : String) : Option (Nat × Nat × Nat × Nat) :=
  match s.data with
  | [y1, y2, y3, y4, '-', m1, m2, '-', d1, d2, 'T', h1, h2, ':', n1, n2, ':', s1, s2, '.',
      f1, f2, f3, 'Z'] =>
    match [y1, y2, y3, y4, m1, m2, d1, d2, h1, h2, n1, n2, s1, s2, f1, f2, f3].mapM digitOf with
    | some [a1, a2, a3, a4, b1, b2, c1, c2, e1, e2, g1, g2, k1, k2, _, _, _] =>
      let y := ((a1 * 10 + a2) * 10 + a3) * 10 + a4
      let m := b1 * 10 + b2
      let d := c1 * 10 + c2
      let h := e1 * 10 + e2
      if 1 ≤ m ∧ m ≤ 12 ∧ 1 ≤ d ∧ d ≤ daysInMonth y m ∧ h ≤ 23 ∧ g1 * 10 + g2 ≤ 59
          ∧ k1 * 10 + k2 ≤ 59 then some (y, m, d, h)
      else none
    | _ => none
  | _ => none

/-- The readings of `Date` in a browser whose local zone is UTC, on strings in
the format of `toISOString`, the format in which line 199 writes every time.
On any other string this clock answers `none`; a browser also reads other
formats, so the clock stands for the browser on `toISOString` strings only, and
it is used on such strings only. -/
def utcClock : Clock where
  getHours := fun s => (isoFields s).map (fun f => f.2.2.2)
  getDay := fun s => (isoFields s).map (fun f => weekday f.1 f.2.1 f.2.2.1)

/-! ## Vocabulary of the statements -/

/-- The entry an accepted `append` call creates. -/
def entryOf (call : Option String × String × String × String) : MoodEntry :=
  { mood := call.1.getD "", intensity := call.2.1, note := trim call.2.2.1, time := call.2.2.2 }

/-- A call made with a selected, non-empty mood. -/
def ValidCall (call : Option String × String × String × String) : Prop :=
  ∃ m, call.1 = some m ∧ m ≠ ""

/-- The object `JSON.parse` builds for the text of an entry. -/
def encodeEntry (e : MoodEntry) : JSON :=
  .obj [("mood", .str e.mood), ("intensity", .str e.intensity), ("note", .str e.note),
    ("time", .str e.time)]

/-- Number held by a value of the counting object. -/
def countOf : CountVal → Nat
  | .count n => n
  | .text _ => 0

/-- Digit value of a character. -/
def digitValue (d : Char) : Nat := d.toNat - 48

/-- The mood labels of a sequence, in order. -/
def labelsOf (entries : List MoodEntry) : List String :=
  entries.map MoodEntry.mood

/-- No label of the sequence is a name that a lookup on `{}` finds in
`Object.prototype`. -/
def PlainLabels (entries : List MoodEntry) : Prop :=
  ∀ l ∈ labelsOf entries, l ∉ inheritedNames

/-- Label `a` comes before label `b` when the properties of the counting
object are enumerated: array indices first, by ascending number, then the other
labels by first occurrence in the sequence. -/
def EnumeratedBefore (entries : List MoodEntry) (a b : String) : Prop :=
  match arrayIndex a, arrayIndex b with
  | some i, some j => i < j
  | some _, none => True
  | none, some _ => False
  | none, none => (labelsOf entries).indexOf a < (labelsOf entries).indexOf b

/-- The page before anything was logged or stored. -/
def freshState : State :=
  { moods := [], localStorage := [], selectedMood := none, sliderValue := "5",
    noteValue := "" }

/-! # Theorems -/

/-! ## Own properties of a plain object -/

theorem setProp_keys {α : Type} (c : List (String × α)) (k : String) (v : α) :
    (setProp c k v).map Prod.fst
      = if k ∈ c.map Prod.fst then c.map Prod.fst else c.map Prod.fst ++ [k] := by
  induction c with
  | nil => simp [setProp]
  | cons p ps ih =>
    obtain ⟨k0, v0⟩ := p
    by_cases h : k0 = k
    · subst h; simp [setProp]
    · have h2 : ¬ k = k0 := fun e => h e.symm
      simp only [setProp, if_neg h, List.map_cons, ih, List.mem_cons, h2, false_or]
      split <;> simp

theorem getProp_setProp {α : Type} (c : List (String × α)) (k j : String) (v : α) :
    getProp (setProp c k v) j = if j = k then some v else getProp c j := by
  induction c with
  | nil =>
    by_cases h : j = k
    · subst h; simp [setProp, getProp]
    · have h2 : ¬ k = j := fun e => h e.symm
      simp [setProp, getProp, h, h2]
  | cons p ps ih =>
    obtain ⟨k0, v0⟩ := p
    by_cases h : k0 = k
    · subst h
      by_cases hj : j = k0
      · subst hj; simp [setProp, getProp]
      · have h2 : ¬ k0 = j := fun e => hj e.symm
        simp [setProp, getProp, hj, h2]
    · by_cases hj : k0 = j
      · subst hj
        have h2 : ¬ k0 = k := h
        simp [setProp, getProp, h]
      · simp only [setProp, if_neg h, getProp, if_neg hj, ih]

theorem getProp_eq_none {α : Type} (c : List (String × α)) (k : String) :
    getProp c k = none ↔ k ∉ c.map Prod.fst := by
  induction c with
  | nil => simp [getProp]
  | cons p ps ih =>
    obtain ⟨k0, v0⟩ := p
    by_cases h : k0 = k
    · subst h; simp [getProp]
    · have h2 : ¬ k = k0 := fun e => h e.symm
      simp [getProp, h, h2, ih]

theorem getProp_of_mem {α : Type} (c : List (String × α)) (hnd : (c.map Prod.fst).Nodup)
    (p : String × α) (hp : p ∈ c) : getProp c p.1 = some p.2 := by
  induction c with
  | nil => simp at hp
  | cons q qs ih =>
    obtain ⟨k0, v0⟩ := q
    simp only [List.map_cons, List.nodup_cons] at hnd
    rcases List.mem_cons.mp hp with h | h
    · subst h; simp [getProp]
    · have hne : k0 ≠ p.1 := by
        intro e
        exact hnd.1 (e ▸ List.mem_map_of_mem Prod.fst h)
      simp only [getProp, if_neg hne]
      exact ih hnd.2 h

theorem getProp_some_mem {α : Type} (c : List (String × α)) (k : String) (v : α)
    (h : getProp c k = some v) : (k, v) ∈ c := by
  induction c with
  | nil => simp [getProp] at h
  | cons p ps ih =>
    obtain ⟨k0, v0⟩ := p
    by_cases hk : k0 = k
    · subst hk
      simp only [getProp, if_true, Option.some.injEq] at h
      subst h
      exact List.mem_cons_self _ _
    · simp only [getProp, if_neg hk] at h
      exact List.mem_cons_of_mem _ (ih h)

theorem setProp_ne_nil {α : Type} (c : List (String × α)) (k : String) (v : α) :
    setProp c k v ≠ [] := by
  cases c with
  | nil => simp [setProp]
  | cons p ps =>
    obtain ⟨k0, v0⟩ := p
    simp only [setProp]
    split <;> simp

/-! ## Fuel of the JSON reader -/

theorem skipWs_length (cs : List Char) : (skipWs cs).length ≤ cs.length := by
  induction cs with
  | nil => simp [skipWs]
  | cons c cs ih =>
    rw [skipWs]
    split
    · simp; omega
    · simp

theorem skipWs_cons_length (cs : List Char) (c : Char) (rest : List Char)
    (h : skipWs cs = c :: rest) : rest.length + 1 ≤ cs.length := by
  have := skipWs_length cs
  rw [h] at this
  simpa using this

theorem parseLowSurrogate_length (hi : Nat) (cs : List Char) (ch : Char) (rest : List Char)
    (h : parseLowSurrogate hi cs = .ok (ch, rest)) : rest.length + 1 ≤ cs.length := by
  unfold parseLowSurrogate at h
  split at h
  · split at h
    · split at h
      · cases h
      · split at h
        · simp only [Except.ok.injEq, Prod.mk.injEq] at h
          obtain ⟨-, rfl⟩ := h
          simp only [List.length_cons]; omega
        · cases h
    · cases h
  · cases h

theorem parseUnicode_length (cs : List Char) (ch : Char) (rest : List Char)
    (h : parseUnicode cs = .ok (ch, rest)) : rest.length + 1 ≤ cs.length := by
  unfold parseUnicode at h
  split at h
  · split at h
    · cases h
    · split at h
      · have := parseLowSurrogate_length _ _ _ _ h
        simp only [List.length_cons]; omega
      · split at h
        · cases h
        · simp only [Except.ok.injEq, Prod.mk.injEq] at h
          obtain ⟨-, rfl⟩ := h
          simp only [List.length_cons]; omega
  · cases h

theorem parseEscape_length (cs : List Char) (ch : Char) (rest : List Char)
    (h : parseEscape cs = .ok (ch, rest)) : rest.length + 1 ≤ cs.length := by
  unfold parseEscape at h
  split at h
  · cases h
  · split at h
    · have := parseUnicode_length _ _ _ h
      simp only [List.length_cons]; omega
    · split at h
      · simp only [Except.ok.injEq, Prod.mk.injEq] at h
        obtain ⟨-, rfl⟩ := h
        simp only [List.length_cons]; omega
      · cases h

theorem consChar_ok (c : Char) (r : Except ParseFail (List Char × List Char)) (k rest : List Char)
    (h : consChar c r = .ok (k, rest)) : ∃ k2, r = .ok (k2, rest) := by
  unfold consChar at h
  split at h
  · cases h; exact ⟨_, rfl⟩
  · cases h

theorem parseCharsFuel_length (f : Nat) : ∀ (cs k rest : List Char),
    parseCharsFuel f cs = .ok (k, rest) → rest.length + 1 ≤ cs.length := by
  induction f with
  | zero => intro cs k rest h; simp [parseCharsFuel] at h
  | succ f ih =>
    intro cs k rest h
    cases cs with
    | nil => simp [parseCharsFuel] at h
    | cons c cs =>
      rw [parseCharsFuel] at h
      split at h
      · simp only [Except.ok.injEq, Prod.mk.injEq] at h
        obtain ⟨-, rfl⟩ := h
        simp only [List.length_cons]; omega
      · split at h
        · split at h
          · cases h
          · rename_i ch rest2 hesc
            obtain ⟨k2, hk⟩ := consChar_ok _ _ _ _ h
            have h1 := ih _ _ _ hk
            have h2 := parseEscape_length _ _ _ hesc
            simp only [List.length_cons]; omega
        · split at h
          · cases h
          · obtain ⟨k2, hk⟩ := consChar_ok _ _ _ _ h
            have h1 := ih _ _ _ hk
            simp only [List.length_cons]; omega

/-- The fuel of `parseChars` is enough: more fuel changes nothing. -/
theorem parseCharsFuel_enough (f : Nat) : ∀ (cs : List Char) (g : Nat),
    cs.length ≤ f → cs.length ≤ g → parseCharsFuel f cs = parseCharsFuel g cs := by
  induction f with
  | zero =>
    intro cs g hf hg
    have : cs = [] := List.length_eq_zero.mp (Nat.le_zero.mp hf)
    subst this
    cases g <;> simp [parseCharsFuel]
  | succ f ih =>
    intro cs g hf hg
    cases cs with
    | nil => cases g <;> simp [parseCharsFuel]
    | cons c cs =>
      obtain ⟨g, rfl⟩ : ∃ g2, g = g2 + 1 := ⟨g - 1, by simp at hg; omega⟩
      simp only [List.length_cons] at hf hg
      rw [parseCharsFuel, parseCharsFuel]
      split
      · rfl
      · split
        · split
          · rfl
          · rename_i ch rest2 hesc
            have h2 := parseEscape_length _ _ _ hesc
            rw [ih rest2 g (by omega) (by omega)]
        · split
          · rfl
          · rw [ih cs g (by omega) (by omega)]

theorem span_snd_length (p : Char → Bool) (l : List Char) : (l.span p).2.length ≤ l.length := by
  rw [List.span_eq_take_drop]
  exact (List.dropWhile_sublist p).length_le

theorem parseFrac_length (cs fs rest : List Char) (h : parseFrac cs = .ok (fs, rest)) :
    rest.length ≤ cs.length := by
  unfold parseFrac at h
  split at h
  · rename_i r
    have hs := span_snd_length Char.isDigit r
    split at h
    · cases h
    · rename_i ds r2 _ heq
      simp only [Except.ok.injEq, Prod.mk.injEq] at h
      obtain ⟨-, rfl⟩ := h
      rw [heq] at hs
      simp only [List.length_cons]
      exact Nat.le_succ_of_le hs
  · simp only [Except.ok.injEq, Prod.mk.injEq] at h
    obtain ⟨-, rfl⟩ := h
    exact Nat.le_refl _

theorem parseExpDigits_length (sign : Int) (cs : List Char) (e : Int) (rest : List Char)
    (h : parseExpDigits sign cs = .ok (e, rest)) : rest.length ≤ cs.length := by
  unfold parseExpDigits at h
  have hs := span_snd_length Char.isDigit cs
  split at h
  · cases h
  · rename_i ds r _ heq
    simp only [Except.ok.injEq, Prod.mk.injEq] at h
    obtain ⟨-, rfl⟩ := h
    rw [heq] at hs
    exact hs

theorem parseExp_length (cs : List Char) (e : Int) (rest : List Char)
    (h : parseExp cs = .ok (e, rest)) : rest.length ≤ cs.length := by
  unfold parseExp at h
  split at h
  · have := parseExpDigits_length _ _ _ _ h; simp only [List.length_cons]; omega
  · have := parseExpDigits_length _ _ _ _ h; simp only [List.length_cons]; omega
  · have := parseExpDigits_length _ _ _ _ h; simp only [List.length_cons]; omega
  · have := parseExpDigits_length _ _ _ _ h; simp only [List.length_cons]; omega
  · have := parseExpDigits_length _ _ _ _ h; simp only [List.length_cons]; omega
  · have := parseExpDigits_length _ _ _ _ h; simp only [List.length_cons]; omega
  · simp only [Except.ok.injEq, Prod.mk.injEq] at h
    obtain ⟨-, rfl⟩ := h
    exact Nat.le_refl _

theorem parseNumberTail_length (neg : Bool) (ds cs : List Char) (v : JSON) (rest : List Char)
    (h : parseNumberTail neg ds cs = .ok (v, rest)) : rest.length ≤ cs.length := by
  unfold parseNumberTail at h
  split at h
  · cases h
  · rename_i fs r1 hf
    split at h
    · cases h
    · rename_i e r2 he
      simp only [Except.ok.injEq, Prod.mk.injEq] at h
      obtain ⟨-, rfl⟩ := h
      exact Nat.le_trans (parseExp_length _ _ _ he) (parseFrac_length _ _ _ hf)

theorem parseUnsigned_length (neg : Bool) (cs : List Char) (v : JSON) (rest : List Char)
    (h : parseUnsigned neg cs = .ok (v, rest)) : rest.length ≤ cs.length := by
  unfold parseUnsigned at h
  split at h
  · have := parseNumberTail_length _ _ _ _ _ h
    simp only [List.length_cons]; omega
  · rename_i c r _
    split at h
    · have hs := span_snd_length Char.isDigit (c :: r)
      split at h
      rename_i ds r2 heq
      have := parseNumberTail_length _ _ _ _ _ h
      rw [heq] at hs
      exact Nat.le_trans this hs
    · cases h
  · cases h

theorem parseNumber_length (cs : List Char) (v : JSON) (rest : List Char)
    (h : parseNumber cs = .ok (v, rest)) : rest.length ≤ cs.length := by
  unfold parseNumber at h
  split at h
  · have := parseUnsigned_length _ _ _ _ h
    simp only [List.length_cons]; omega
  · exact parseUnsigned_length _ _ _ _ h

theorem dropLiteral_length (lit : List Char) : ∀ (cs rest : List Char),
    dropLiteral lit cs = some rest → rest.length ≤ cs.length := by
  induction lit with
  | nil => intro cs rest h; simp only [dropLiteral, Option.some.injEq] at h; rw [h]
  | cons l ls ih =>
    intro cs rest h
    cases cs with
    | nil => simp [dropLiteral] at h
    | cons c cs =>
      rw [dropLiteral] at h
      split at h
      · have := ih _ _ h
        simp only [List.length_cons]; omega
      · cases h

theorem parseKeyword_length (tail : String) (v w : JSON) (cs rest : List Char)
    (h : parseKeyword tail v cs = .ok (w, rest)) : rest.length ≤ cs.length := by
  unfold parseKeyword at h
  split at h
  · rename_i rest2 hd
    simp only [Except.ok.injEq, Prod.mk.injEq] at h
    obtain ⟨-, rfl⟩ := h
    exact dropLiteral_length _ _ _ hd
  · cases h

/-- More fuel than the length of the text changes nothing for `parseChars`. -/
theorem parseChars_enough (cs : List Char) (g : Nat) (h : cs.length ≤ g) :
    parseCharsFuel g cs = parseChars cs :=
  parseCharsFuel_enough g cs cs.length h (Nat.le_refl _)

theorem parseChars_length (cs k rest : List Char) (h : parseChars cs = .ok (k, rest)) :
    rest.length + 1 ≤ cs.length :=
  parseCharsFuel_length _ _ _ _ h

/-- A value that was read leaves a text no longer than the text it was read
from. -/
theorem parse_length (f : Nat) :
    (∀ (cs : List Char) (v : JSON) (rest : List Char),
        parseValue f cs = .ok (v, rest) → rest.length ≤ cs.length)
      ∧ (∀ (cs : List Char) (vs : List JSON) (rest : List Char),
        parseElements f cs = .ok (vs, rest) → rest.length ≤ cs.length)
      ∧ (∀ (cs : List Char) (ms : List (String × JSON)) (rest : List Char),
        parseMembers f cs = .ok (ms, rest) → rest.length ≤ cs.length) := by
  induction f with
  | zero =>
    refine ⟨?_, ?_, ?_⟩ <;> intro cs v rest h
    · rw [parseValue] at h; cases h
    · rw [parseElements] at h; cases h
    · rw [parseMembers] at h; cases h
  | succ f ih =>
    obtain ⟨ihV, ihE, ihM⟩ := ih
    refine ⟨?_, ?_, ?_⟩
    · intro cs v rest h
      rw [parseValue] at h
      split at h
      · cases h
      · rename_i c r hsk
        have hlen := skipWs_cons_length cs c r hsk
        split at h
        · split at h
          · rename_i s rest2 hc
            simp only [Except.ok.injEq, Prod.mk.injEq] at h
            obtain ⟨-, rfl⟩ := h
            have := parseChars_length _ _ _ hc
            omega
          · cases h
        · split at h
          · split at h
            · simp only [Except.ok.injEq, Prod.mk.injEq] at h
              obtain ⟨-, rfl⟩ := h
              have := skipWs_length r
              simp only [List.length_tail]
              omega
            · split at h
              · rename_i items rest2 he
                simp only [Except.ok.injEq, Prod.mk.injEq] at h
                obtain ⟨-, rfl⟩ := h
                have := ihE _ _ _ he
                omega
              · cases h
          · split at h
            · split at h
              · simp only [Except.ok.injEq, Prod.mk.injEq] at h
                obtain ⟨-, rfl⟩ := h
                have := skipWs_length r
                simp only [List.length_tail]
                omega
              · split at h
                · rename_i members rest2 he
                  simp only [Except.ok.injEq, Prod.mk.injEq] at h
                  obtain ⟨-, rfl⟩ := h
                  have := ihM _ _ _ he
                  omega
                · cases h
            · split at h
              · have := parseKeyword_length _ _ _ _ _ h; omega
              · split at h
                · have := parseKeyword_length _ _ _ _ _ h; omega
                · split at h
                  · have := parseKeyword_length _ _ _ _ _ h; omega
                  · have := parseNumber_length _ _ _ h
                    simp only [List.length_cons] at this
                    omega
    · intro cs vs rest h
      rw [parseElements] at h
      split at h
      · cases h
      · rename_i v rest1 hv
        have h1 := ihV _ _ _ hv
        split at h
        · cases h
        · rename_i c rest2 hsk
          have h2 := skipWs_cons_length _ _ _ hsk
          split at h
          · split at h
            · rename_i vs2 rest3 he
              simp only [Except.ok.injEq, Prod.mk.injEq] at h
              obtain ⟨-, rfl⟩ := h
              have := ihE _ _ _ he
              omega
            · cases h
          · split at h
            · simp only [Except.ok.injEq, Prod.mk.injEq] at h
              obtain ⟨-, rfl⟩ := h
              omega
            · cases h
    · intro cs ms rest h
      rw [parseMembers] at h
      split at h
      · cases h
      · rename_i q r hsk
        have h0 := skipWs_cons_length _ _ _ hsk
        split at h
        · split at h
          · cases h
          · rename_i k rest1 hc
            have h1 := parseChars_length _ _ _ hc
            split at h
            · cases h
            · rename_i colon rest2 hsk2
              have h2 := skipWs_cons_length _ _ _ hsk2
              split at h
              · split at h
                · cases h
                · rename_i v rest3 hv
                  have h3 := ihV _ _ _ hv
                  split at h
                  · cases h
                  · rename_i c rest4 hsk4
                    have h4 := skipWs_cons_length _ _ _ hsk4
                    split at h
                    · split at h
                      · rename_i ms2 rest5 hm
                        simp only [Except.ok.injEq, Prod.mk.injEq] at h
                        obtain ⟨-, rfl⟩ := h
                        have := ihM _ _ _ hm
                        omega
                      · cases h
                    · split at h
                      · simp only [Except.ok.injEq, Prod.mk.injEq] at h
                        obtain ⟨-, rfl⟩ := h
                        omega
                      · cases h
              · cases h
        · cases h

/-- Beyond twice the length of the text, the fuel has no influence on what the
reader delivers. -/
theorem parse_enough (f : Nat) :
    (∀ (cs : List Char) (g : Nat), 2 * cs.length + 2 ≤ f → 2 * cs.length + 2 ≤ g →
        parseValue f cs = parseValue g cs)
      ∧ (∀ (cs : List Char) (g : Nat), 2 * cs.length + 3 ≤ f → 2 * cs.length + 3 ≤ g →
        parseElements f cs = parseElements g cs)
      ∧ (∀ (cs : List Char) (g : Nat), 2 * cs.length + 3 ≤ f → 2 * cs.length + 3 ≤ g →
        parseMembers f cs = parseMembers g cs) := by
  induction f with
  | zero =>
    refine ⟨?_, ?_, ?_⟩ <;> intro cs g hf _ <;> omega
  | succ f ih =>
    obtain ⟨ihV, ihE, ihM⟩ := ih
    refine ⟨?_, ?_, ?_⟩
    · intro cs g hf hg
      obtain ⟨g, rfl⟩ : ∃ g2, g = g2 + 1 := ⟨g - 1, by omega⟩
      rw [parseValue, parseValue]
      cases hsk : skipWs cs with
      | nil => rfl
      | cons c r =>
        have hlen := skipWs_cons_length cs c r hsk
        simp only
        rw [ihE r g (by omega) (by omega), ihM r g (by omega) (by omega)]
    · intro cs g hf hg
      obtain ⟨g, rfl⟩ : ∃ g2, g = g2 + 1 := ⟨g - 1, by omega⟩
      rw [parseElements, parseElements, ihV cs g (by omega) (by omega)]
      cases hv : parseValue g cs with
      | error e => rfl
      | ok r =>
        obtain ⟨v, rest⟩ := r
        have h1 := (parse_length g).1 _ _ _ hv
        simp only
        cases hsk : skipWs rest with
        | nil => rfl
        | cons c rest2 =>
          have h2 := skipWs_cons_length _ _ _ hsk
          simp only
          rw [ihE rest2 g (by omega) (by omega)]
    · intro cs g hf hg
      obtain ⟨g, rfl⟩ : ∃ g2, g = g2 + 1 := ⟨g - 1, by omega⟩
      rw [parseMembers, parseMembers]
      cases hsk : skipWs cs with
      | nil => rfl
      | cons q r =>
        have h0 := skipWs_cons_length _ _ _ hsk
        simp only
        cases hc : parseChars r with
        | error e => rfl
        | ok kr =>
          obtain ⟨k, rest1⟩ := kr
          have h1 := parseChars_length _ _ _ hc
          simp only
          cases hsk2 : skipWs rest1 with
          | nil => rfl
          | cons colon rest2 =>
            have h2 := skipWs_cons_length _ _ _ hsk2
            simp only
            rw [ihV rest2 g (by omega) (by omega)]
            cases hv : parseValue g rest2 with
            | error e => rfl
            | ok vr =>
              obtain ⟨v, rest3⟩ := vr
              have h3 := (parse_length g).1 _ _ _ hv
              simp only
              cases hsk4 : skipWs rest3 with
              | nil => rfl
              | cons c rest4 =>
                have h4 := skipWs_cons_length _ _ _ hsk4
                simp only
                rw [ihM rest4 g (by omega) (by omega)]

/-- The fuel `JSONparse` passes is enough: with any larger fuel the reader
delivers the same. -/
theorem parseValue_enough (text : String) (g : Nat) (h : 2 * text.length + 2 ≤ g) :
    parseValue g text.data = parseValue (2 * text.length + 2) text.data :=
  ((parse_enough g).1 text.data (2 * text.length + 2) h (Nat.le_refl _))

/-! ## Reading back what `JSON.stringify` wrote -/

theorem hex_small : ∀ n, n < 32 →
    hex4 '0' '0' (hexDigit (n / 16)) (hexDigit (n % 16)) = some n := by
  decide

theorem parseCharsFuel_plain (f : Nat) (c : Char) (rest : List Char) (h1 : c ≠ '"')
    (h2 : c ≠ '\\') (h3 : ¬ c.toNat < 0x20) :
    parseCharsFuel (f + 1) (c :: rest) = consChar c (parseCharsFuel f rest) := by
  rw [parseCharsFuel, if_neg h1, if_neg h2, if_neg h3]

theorem parseCharsFuel_quote (f : Nat) (rest : List Char) :
    parseCharsFuel (f + 1) ('"' :: rest) = .ok ([], rest) := by
  rw [parseCharsFuel, if_pos rfl]

theorem parseCharsFuel_escape (f : Nat) (rest rest2 : List Char) (ch : Char)
    (h : parseEscape rest = .ok (ch, rest2)) :
    parseCharsFuel (f + 1) ('\\' :: rest) = consChar ch (parseCharsFuel f rest2) := by
  rw [parseCharsFuel, if_neg (by decide), if_pos rfl, h]

theorem parseEscape_unicode (c : Char) (rest : List Char) (h : c.toNat < 32) :
    parseEscape ('u' :: '0' :: '0' :: hexDigit (c.toNat / 16) :: hexDigit (c.toNat % 16) :: rest)
      = .ok (c, rest) := by
  have hn := hex_small c.toNat h
  simp only [parseEscape, parseUnicode, if_true, hn]
  rw [if_neg (by simp [isHighSurrogate]; omega), if_neg (by simp [isLowSurrogate]; omega),
    Char.ofNat_toNat]

/-- The fuel `parseChars` needs for the escaped text of a string is at most
the length of that text. -/
theorem parseCharsFuel_escapeChars (cs rest : List Char) :
    ∀ f, (escapeChars cs).length + 1 ≤ f →
      parseCharsFuel f (escapeChars cs ++ '"' :: rest) = .ok (cs, rest) := by
  induction cs with
  | nil =>
    intro f hf
    obtain ⟨g, rfl⟩ : ∃ g, f = g + 1 := ⟨f - 1, by simp [escapeChars] at hf; omega⟩
    exact parseCharsFuel_quote g rest
  | cons c cs ih =>
    intro f hf
    obtain ⟨g, rfl⟩ : ∃ g, f = g + 1 := ⟨f - 1, by omega⟩
    have hlen : 1 ≤ (escapeChar c).length := by
      unfold escapeChar; repeat' split
      all_goals simp
    rw [escapeChars, List.length_append] at hf
    have step : parseCharsFuel (g + 1) (escapeChar c ++ (escapeChars cs ++ '"' :: rest))
        = consChar c (parseCharsFuel g (escapeChars cs ++ '"' :: rest)) := by
      unfold escapeChar
      split
      · rename_i h; subst h; exact parseCharsFuel_escape _ _ _ _ rfl
      split
      · rename_i h; subst h; exact parseCharsFuel_escape _ _ _ _ rfl
      split
      · rename_i h; subst h; exact parseCharsFuel_escape _ _ _ _ rfl
      split
      · rename_i h; subst h; exact parseCharsFuel_escape _ _ _ _ rfl
      split
      · rename_i h; subst h; exact parseCharsFuel_escape _ _ _ _ rfl
      split
      · rename_i h; subst h; exact parseCharsFuel_escape _ _ _ _ rfl
      split
      · rename_i h; subst h; exact parseCharsFuel_escape _ _ _ _ rfl
      split
      · rename_i h
        exact parseCharsFuel_escape _ _ _ _ (parseEscape_unicode c _ h)
      · rename_i h1 h2 _ _ _ _ _ h
        exact parseCharsFuel_plain g c _ h1 h2 h
    rw [escapeChars, List.append_assoc, step, ih g (by omega)]
    rfl

theorem parseChars_quoteJSON (s : String) (rest : List Char) :
    parseChars (escapeChars s.data ++ '"' :: rest) = .ok (s.data, rest) := by
  unfold parseChars
  exact parseCharsFuel_escapeChars s.data rest _ (by simp)

theorem skipWs_cons (c : Char) (cs : List Char) (h : isWs c = false) :
    skipWs (c :: cs) = c :: cs := by
  rw [skipWs, h]; rfl

theorem parseValue_string (f : Nat) (s : String) (rest : List Char) :
    parseValue (f + 1) (quoteJSON s ++ rest) = .ok (.str s, rest) := by
  rw [parseValue]
  simp only [quoteJSON, List.cons_append, List.append_assoc, List.nil_append]
  rw [skipWs_cons _ _ (by decide)]
  simp only [if_true]
  rw [parseChars_quoteJSON]

theorem parseMembers_last (f : Nat) (k v : String) (rest : List Char) :
    parseMembers (f + 2) (quoteJSON k ++ ':' :: (quoteJSON v ++ '}' :: rest))
      = .ok ([(k, .str v)], rest) := by
  rw [parseMembers]
  simp only [quoteJSON, List.cons_append, List.append_assoc, List.nil_append]
  rw [skipWs_cons _ _ (by decide)]
  simp only [if_true]
  rw [parseChars_quoteJSON]
  simp only
  rw [skipWs_cons _ _ (by decide)]
  simp only [if_true]
  have h := parseValue_string f v ('}' :: rest)
  simp only [quoteJSON, List.cons_append, List.append_assoc, List.nil_append] at h
  rw [h]
  simp only
  rw [skipWs_cons _ _ (by decide)]
  simp

theorem parseMembers_more (f : Nat) (k v : String) (tail rest : List Char)
    (ms : List (String × JSON)) (h : parseMembers (f + 1) tail = .ok (ms, rest)) :
    parseMembers (f + 2) (quoteJSON k ++ ':' :: (quoteJSON v ++ ',' :: tail))
      = .ok ((k, .str v) :: ms, rest) := by
  rw [parseMembers]
  simp only [quoteJSON, List.cons_append, List.append_assoc, List.nil_append]
  rw [skipWs_cons _ _ (by decide)]
  simp only [if_true]
  rw [parseChars_quoteJSON]
  simp only
  rw [skipWs_cons _ _ (by decide)]
  simp only [if_true]
  have hv := parseValue_string f v (',' :: tail)
  simp only [quoteJSON, List.cons_append, List.append_assoc, List.nil_append] at hv
  rw [hv]
  simp only
  rw [skipWs_cons _ _ (by decide)]
  simp only [if_true, h]

theorem entryText_eq (e : MoodEntry) (rest : List Char) :
    entryText e ++ rest = '{' :: (quoteJSON "mood" ++ ':' :: (quoteJSON e.mood ++ ',' ::
      (quoteJSON "intensity" ++ ':' :: (quoteJSON e.intensity ++ ',' ::
      (quoteJSON "note" ++ ':' :: (quoteJSON e.note ++ ',' ::
      (quoteJSON "time" ++ ':' :: (quoteJSON e.time ++ '}' :: rest)))))))) := by
  have h1 : quoteJSON "mood" = "\"mood\"".data := by decide
  have h2 : quoteJSON "intensity" = "\"intensity\"".data := by decide
  have h3 : quoteJSON "note" = "\"note\"".data := by decide
  have h4 : quoteJSON "time" = "\"time\"".data := by decide
  rw [h1, h2, h3, h4]
  simp [entryText]

theorem mkObject_entry (e : MoodEntry) :
    mkObject [("mood", .str e.mood), ("intensity", .str e.intensity), ("note", .str e.note),
      ("time", .str e.time)] = encodeEntry e := by
  simp [mkObject, setProp, encodeEntry]

theorem toEntry_encodeEntry (e : MoodEntry) : toEntry (encodeEntry e) = some e := by
  simp [toEntry, encodeEntry]

theorem parseValue_entry (f : Nat) (e : MoodEntry) (rest : List Char) :
    parseValue (f + 6) (entryText e ++ rest) = .ok (encodeEntry e, rest) := by
  rw [entryText_eq, parseValue, skipWs_cons _ _ (by decide)]
  simp only
  rw [if_neg (by decide), if_neg (by decide), if_pos True.intro]
  have hm := parseMembers_more (f + 3) "mood" e.mood _ rest _
    (parseMembers_more (f + 2) "intensity" e.intensity _ rest _
      (parseMembers_more (f + 1) "note" e.note _ rest _
        (parseMembers_last f "time" e.time rest)))
  rw [hm]
  have hq : (skipWs (quoteJSON "mood" ++ ':' :: (quoteJSON e.mood ++ ',' ::
      (quoteJSON "intensity" ++ ':' :: (quoteJSON e.intensity ++ ',' ::
      (quoteJSON "note" ++ ':' :: (quoteJSON e.note ++ ',' ::
      (quoteJSON "time" ++ ':' :: (quoteJSON e.time ++ '}' :: rest))))))))).head? ≠ some '}' := by
    simp only [quoteJSON, List.cons_append]
    rw [skipWs_cons _ _ (by decide)]
    simp
  rw [if_neg hq]
  simp only [mkObject_entry]

theorem entryText_head (e : MoodEntry) (rest : List Char) :
    ∃ tail, entryText e ++ rest = '{' :: tail :=
  ⟨_, entryText_eq e rest⟩

theorem elementsText_cons_cons (e e2 : MoodEntry) (es : List MoodEntry) :
    elementsText (e :: e2 :: es) = entryText e ++ ',' :: elementsText (e2 :: es) := rfl

theorem parseElements_log (es : List MoodEntry) (rest : List Char) :
    es ≠ [] → ∀ f, es.length + 6 ≤ f →
      parseElements f (elementsText es ++ ']' :: rest) = .ok (es.map encodeEntry, rest) := by
  induction es with
  | nil => intro h; exact absurd rfl h
  | cons e es ih =>
    intro _ f hf
    obtain ⟨g, rfl⟩ : ∃ g, f = g + 7 := ⟨f - 7, by simp at hf; omega⟩
    cases es with
    | nil =>
      rw [parseElements]
      simp only [elementsText]
      rw [parseValue_entry g e]
      simp only
      rw [skipWs_cons _ _ (by decide)]
      simp
    | cons e2 es =>
      rw [parseElements, elementsText_cons_cons, List.append_assoc, parseValue_entry g e]
      simp only [List.cons_append]
      rw [skipWs_cons _ _ (by decide)]
      simp only [if_true]
      rw [ih (by simp) (g + 6) (by simp at hf ⊢; omega)]
      simp

theorem entryText_length (e : MoodEntry) : 46 ≤ (entryText e).length := by
  simp [entryText, quoteJSON]
  omega

theorem elementsText_length (es : List MoodEntry) : 45 * es.length ≤ (elementsText es).length := by
  induction es with
  | nil => simp
  | cons e es ih =>
    cases es with
    | nil => simp only [elementsText]; have := entryText_length e; simp; omega
    | cons e2 es =>
      rw [elementsText_cons_cons]
      have := entryText_length e
      simp only [List.length_append, List.length_cons] at ih ⊢
      omega

theorem toEntries_encode (es : List MoodEntry) :
    toEntries (es.map encodeEntry) = some es := by
  induction es with
  | nil => rfl
  | cons e es ih => simp [toEntries, toEntry_encodeEntry, ih]

theorem JSONparse_stringify (es : List MoodEntry) :
    JSONparse (JSONstringify es) = .ok (.arr (es.map encodeEntry)) := by
  unfold JSONparse JSONstringify
  simp only [String.length_mk, List.length_cons, List.length_append, List.length_nil]
  cases es with
  | nil =>
    rw [parseValue]
    simp only [elementsText, List.nil_append]
    rw [skipWs_cons _ _ (by decide)]
    simp only
    rw [if_neg (by decide), if_pos True.intro, skipWs_cons _ _ (by decide)]
    simp [skipWs]
  | cons e es =>
    rw [parseValue, skipWs_cons _ _ (by decide)]
    simp only
    rw [if_neg (by decide), if_pos True.intro]
    obtain ⟨tail, ht⟩ := entryText_head e []
    have hhead : (skipWs (elementsText (e :: es) ++ [']'])).head? ≠ some ']' := by
      cases es with
      | nil =>
        simp only [elementsText]
        obtain ⟨tail, ht⟩ := entryText_head e [']']
        rw [ht, skipWs_cons _ _ (by decide)]
        simp
      | cons e2 es =>
        rw [elementsText_cons_cons, List.append_assoc]
        obtain ⟨tail, ht⟩ := entryText_head e (',' :: elementsText (e2 :: es) ++ [']'])
        rw [ht, skipWs_cons _ _ (by decide)]
        simp
    rw [if_neg hhead]
    have hlen := elementsText_length (e :: es)
    rw [parseElements_log (e :: es) [] (by simp) _ (by simp at hlen ⊢; omega)]
    simp [skipWs]

/-- Loading the text `JSON.stringify` wrote for a log gives that log back. -/
theorem load_stringify (localStorage : List (String × String)) (es : List MoodEntry)
    (h : getItem localStorage STORAGE_KEY = some (JSONstringify es)) :
    load localStorage = .log es := by
  unfold load
  simp only [h, Option.getD_some, JSONparse_stringify, JSON.truthy, if_true, toLog,
    toEntries_encode]

theorem getItem_setItem (localStorage : List (String × String)) (key value : String) :
    getItem (setItem localStorage key value) key = some value := by
  simp [getItem, setItem, getProp_setProp]

theorem getItem_removeItem (localStorage : List (String × String)) (key : String) :
    getItem (removeItem localStorage key) key = none := by
  rw [getItem, getProp_eq_none]
  intro h
  obtain ⟨p, hp, hk⟩ := List.mem_map.mp h
  have := (List.mem_filter.mp hp).2
  simp [hk] at this

/-! ## Entry store: append, clear, load -/

theorem saveClick_selected (now m : String) (st : State) (hsel : st.selectedMood = some m)
    (hm : m ≠ "") :
    saveClick now st =
      ({ moods := ⟨m, st.sliderValue, trim st.noteValue, now⟩ :: st.moods,
         localStorage := setItem st.localStorage STORAGE_KEY
           (JSONstringify (⟨m, st.sliderValue, trim st.noteValue, now⟩ :: st.moods)),
         selectedMood := none, sliderValue := "5", noteValue := "" }, none) := by
  simp [saveClick, hsel, hm]

theorem append_valid (m intensity note now : String) (st : State) (hm : m ≠ "") :
    append (some m) intensity note now st =
      ({ moods := ⟨m, intensity, trim note, now⟩ :: st.moods,
         localStorage := setItem st.localStorage STORAGE_KEY
           (JSONstringify (⟨m, intensity, trim note, now⟩ :: st.moods)),
         selectedMood := none, sliderValue := "5", noteValue := "" }, none) := by
  unfold append
  rw [saveClick_selected now m _ rfl hm]
  rfl

theorem append_valid_moods (call : Option String × String × String × String) (st : State)
    (hv : ValidCall call) :
    (append call.1 call.2.1 call.2.2.1 call.2.2.2 st).1.moods = entryOf call :: st.moods := by
  obtain ⟨m, hm, hne⟩ := hv
  rw [hm, append_valid m _ _ _ st hne]
  simp [entryOf, hm]

theorem appendAll_moods (calls : List (Option String × String × String × String)) :
    ∀ st : State, (∀ c ∈ calls, ValidCall c) →
      (appendAll calls st).moods = (calls.map entryOf).reverse ++ st.moods := by
  induction calls with
  | nil => intro st _; simp [appendAll]
  | cons c cs ih =>
    intro st hv
    obtain ⟨mood, intensity, note, now⟩ := c
    have hc : ValidCall (mood, intensity, note, now) := hv _ (List.mem_cons_self _ _)
    have hcs : ∀ c ∈ cs, ValidCall c := fun c hmem => hv c (List.mem_cons_of_mem _ hmem)
    have step := append_valid_moods (mood, intensity, note, now) st hc
    simp only at step
    simp only [appendAll]
    rw [ih _ hcs, step]
    simp

/-- C1: after N `append` calls with non-empty moods on an empty log, the log
has length N and lists the entries newest first: it is the reversed list of the
created entries, the entry of the k-th call (k from 1) sits at position N - k,
and a single accepted `append` puts its entry in front of the unchanged log. -/
theorem append_newest_first (calls : List (Option String × String × String × String))
    (st0 : State) (hempty : st0.moods = []) (hvalid : ∀ c ∈ calls, ValidCall c) :
    (appendAll calls st0).moods.length = calls.length
      ∧ (appendAll calls st0).moods = (calls.map entryOf).reverse
      ∧ (∀ k, 1 ≤ k → k ≤ calls.length →
          (appendAll calls st0).moods[calls.length - k]? = (calls[k - 1]?).map entryOf)
      ∧ (∀ (st : State) (c : Option String × String × String × String), ValidCall c →
          (append c.1 c.2.1 c.2.2.1 c.2.2.2 st).1.moods = entryOf c :: st.moods) := by
  have hm : (appendAll calls st0).moods = (calls.map entryOf).reverse := by
    rw [appendAll_moods calls st0 hvalid, hempty]; simp
  refine ⟨by rw [hm]; simp, hm, ?_, fun st c hc => append_valid_moods c st hc⟩
  intro k hk1 hkn
  rw [hm, List.getElem?_reverse (by simp; omega)]
  simp only [List.length_map, List.getElem?_map]
  congr 2
  omega

/-- C1, at three calls. -/
theorem append_newest_first_witness :
    (appendAll [(some "Happy", "5", " slept well ", "2024-01-01T08:00:00.000Z"),
        (some "Sad", "3", "", "2024-01-02T20:00:00.000Z"),
        (some "Tired", "8", "late", "2024-01-03T22:00:00.000Z")] freshState).moods
      = [⟨"Tired", "8", "late", "2024-01-03T22:00:00.000Z"⟩,
         ⟨"Sad", "3", "", "2024-01-02T20:00:00.000Z"⟩,
         ⟨"Happy", "5", "slept well", "2024-01-01T08:00:00.000Z"⟩] := by
  have h := (append_newest_first
    [(some "Happy", "5", " slept well ", "2024-01-01T08:00:00.000Z"),
     (some "Sad", "3", "", "2024-01-02T20:00:00.000Z"),
     (some "Tired", "8", "late", "2024-01-03T22:00:00.000Z")] freshState rfl
    (by
      intro c hc
      simp only [List.mem_cons, List.mem_singleton, List.not_mem_nil, or_false] at hc
      rcases hc with rfl | rfl | rfl
      · exact ⟨"Happy", rfl, by decide⟩
      · exact ⟨"Sad", rfl, by decide⟩
      · exact ⟨"Tired", rfl, by decide⟩)).2.1
  rw [h]
  decide

/-- C9: `append` without a mood (none selected, or the empty string) raises the
alert and leaves the log and the stored value as they were; `append` with a
non-empty mood raises no alert. -/
theorem append_rejects_missing_mood (mood : Option String) (intensity note now : String)
    (st : State) (hmood : mood = none ∨ mood = some "") :
    (append mood intensity note now st).2 = some pickMoodAlert
      ∧ (append mood intensity note now st).1.moods = st.moods
      ∧ (append mood intensity note now st).1.localStorage = st.localStorage
      ∧ (∀ m : String, m ≠ "" → (append (some m) intensity note now st).2 = none) := by
  refine ⟨?_, ?_, ?_, fun m hm => by rw [append_valid m _ _ _ st hm]⟩ <;>
    rcases hmood with rfl | rfl <;> simp [append, saveClick, selectMood]

/-- C9, on a log of one entry with its stored text. -/
theorem append_rejects_missing_mood_witness :
    (append (some "") "7" "note" "2024-01-02T20:00:00.000Z"
        { moods := [⟨"Happy", "5", "", "2024-01-01T08:00:00.000Z"⟩],
          localStorage :=
            [(STORAGE_KEY, JSONstringify [⟨"Happy", "5", "", "2024-01-01T08:00:00.000Z"⟩])],
          selectedMood := none, sliderValue := "5", noteValue := "" }).1.moods
      = [⟨"Happy", "5", "", "2024-01-01T08:00:00.000Z"⟩] :=
  (append_rejects_missing_mood (some "") "7" "note" "2024-01-02T20:00:00.000Z" _
    (Or.inr rfl)).2.1

/-- An absent key loads as the empty log. -/
theorem load_absent (localStorage : List (String × String))
    (h : getItem localStorage STORAGE_KEY = none) : load localStorage = .log [] := by
  unfold load
  rw [h]
  rfl

/-- C10: a confirmed clear leaves an empty log, removes the stored value (the
key is absent, not bound to an empty sequence), and a load after it yields the
empty sequence; when the dialog is declined nothing is cleared. -/
theorem clear_empties_log_and_store (st : State) :
    (clearClick true st).moods.length = 0
      ∧ getItem (clearClick true st).localStorage STORAGE_KEY = none
      ∧ load (clearClick true st).localStorage = .log []
      ∧ clearClick false st = st := by
  have h : getItem (clearClick true st).localStorage STORAGE_KEY = none :=
    getItem_removeItem st.localStorage STORAGE_KEY
  exact ⟨rfl, h, load_absent _ h, rfl⟩

/-- C2: after an `append` with a non-empty mood, loading from the stored text
gives back exactly the log held in memory, which is the new entry in front of
the earlier log, and the stored text is the serialisation of that log. -/
theorem append_then_load (st : State) (m intensity note now : String) (hm : m ≠ "") :
    load (append (some m) intensity note now st).1.localStorage
        = .log (append (some m) intensity note now st).1.moods
      ∧ (append (some m) intensity note now st).1.moods
        = ⟨m, intensity, trim note, now⟩ :: st.moods
      ∧ getItem (append (some m) intensity note now st).1.localStorage STORAGE_KEY
        = some (JSONstringify (⟨m, intensity, trim note, now⟩ :: st.moods)) := by
  rw [append_valid m intensity note now st hm]
  exact ⟨load_stringify _ _ (getItem_setItem _ _ _), rfl, getItem_setItem _ _ _⟩

/-- C2, with a note that needs escaping, on a log of one entry. -/
theorem append_then_load_witness :
    load (append (some "Happy") "7" "  said \"hi\"\n\ttwice \\ " "2024-01-02T09:30:00.000Z"
        { moods := [⟨"Sad", "3", "", "2024-01-01T20:00:00.000Z"⟩],
          localStorage :=
            [(STORAGE_KEY, JSONstringify [⟨"Sad", "3", "", "2024-01-01T20:00:00.000Z"⟩])],
          selectedMood := none, sliderValue := "5", noteValue := "" }).1.localStorage
      = .log [⟨"Happy", "7", "said \"hi\"\n\ttwice \\", "2024-01-02T09:30:00.000Z"⟩,
          ⟨"Sad", "3", "", "2024-01-01T20:00:00.000Z"⟩] := by
  have h := (append_then_load
    { moods := [⟨"Sad", "3", "", "2024-01-01T20:00:00.000Z"⟩],
      localStorage :=
        [(STORAGE_KEY, JSONstringify [⟨"Sad", "3", "", "2024-01-01T20:00:00.000Z"⟩])],
      selectedMood := none, sliderValue := "5", noteValue := "" }
    "Happy" "7" "  said \"hi\"\n\ttwice \\ " "2024-01-02T09:30:00.000Z" (by decide))
  rw [h.1, h.2.1]
  decide

/-- C3, as amended: an absent key loads as the empty sequence, and so does a
stored text denoting a falsy JSON value; a stored text that is not JSON makes
`JSON.parse` raise a `SyntaxError`, so the load fails instead of yielding the
empty sequence. -/
theorem load_absent_falsy_malformed (localStorage : List (String × String)) :
    (getItem localStorage STORAGE_KEY = none → load localStorage = .log [])
      ∧ (∀ (text : String) (v : JSON), getItem localStorage STORAGE_KEY = some text →
          JSONparse text = .ok v → v.truthy = false → load localStorage = .log [])
      ∧ (∀ text : String, getItem localStorage STORAGE_KEY = some text →
          JSONparse text = .error .malformed →
          load localStorage = .threw .syntaxError ∧ load localStorage ≠ .log []) := by
  refine ⟨load_absent localStorage, ?_, ?_⟩
  · intro text v hk hv ht
    simp [load, hk, hv, ht, toLog, toEntries]
  · intro text hk h
    simp [load, hk, h]

/-- C3, as amended, at the text of a log cut short and at the text `null`. -/
theorem load_absent_falsy_malformed_witness :
    load [(STORAGE_KEY, "[\x7b\"mood\":\"Happy\",\"intensity\":\"5\"")] = .threw .syntaxError
      ∧ load [(STORAGE_KEY, "null")] = .log [] :=
  ⟨((load_absent_falsy_malformed
      [(STORAGE_KEY, "[\x7b\"mood\":\"Happy\",\"intensity\":\"5\"")]).2.2
      "[\x7b\"mood\":\"Happy\",\"intensity\":\"5\"" rfl rfl).1,
    (load_absent_falsy_malformed [(STORAGE_KEY, "null")]).2.1 "null" .null rfl rfl rfl⟩

/-- C3 as stated fails: with malformed content under the key, the load raises a
`SyntaxError` and does not yield the empty sequence. -/
theorem load_malformed_throws :
    load [(STORAGE_KEY, "\x7b")] = .threw .syntaxError
      ∧ load [(STORAGE_KEY, "\x7b")] ≠ .log []
      ∧ load [(STORAGE_KEY, "not json")] = .threw .syntaxError := by
  decide

/-! ## Advice lookup -/

theorem includesChars_iff (hay needle : List Char) :
    includesChars hay needle = true ↔ needle <:+: hay := by
  induction hay with
  | nil => simp [includesChars, List.infix_nil]
  | cons c cs ih =>
    simp only [includesChars, Bool.or_eq_true, ih, List.infix_cons_iff,
      List.isPrefixOf_iff_prefix]

theorem includes_iff (s needle : String) :
    includes s needle = true ↔ needle.data <:+: s.data :=
  includesChars_iff s.data needle.data

/-- C7, as amended: for every non-empty label the advice follows the first
match among the substrings Happy, Sad, Angry, Tired, in that order, and is the
consistency advice when none occurs. -/
theorem getAdvice_priority (mood : String) (hne : mood ≠ "") :
    ("Happy".data <:+: mood.data → getAdvice mood = adviceHappy)
      ∧ (¬ "Happy".data <:+: mood.data → "Sad".data <:+: mood.data →
          getAdvice mood = adviceSad)
      ∧ (¬ "Happy".data <:+: mood.data → ¬ "Sad".data <:+: mood.data →
          "Angry".data <:+: mood.data → getAdvice mood = adviceAngry)
      ∧ (¬ "Happy".data <:+: mood.data → ¬ "Sad".data <:+: mood.data →
          ¬ "Angry".data <:+: mood.data → "Tired".data <:+: mood.data →
          getAdvice mood = adviceTired)
      ∧ (¬ "Happy".data <:+: mood.data → ¬ "Sad".data <:+: mood.data →
          ¬ "Angry".data <:+: mood.data → ¬ "Tired".data <:+: mood.data →
          getAdvice mood = adviceConsistency) := by
  have yes : ∀ n : String, n.data <:+: mood.data → includes mood n = true :=
    fun n h => (includes_iff mood n).mpr h
  have no : ∀ n : String, ¬ n.data <:+: mood.data → includes mood n = false :=
    fun n h => by rw [Bool.eq_false_iff]; exact fun hi => h ((includes_iff mood n).mp hi)
  unfold getAdvice
  rw [if_neg hne]
  refine ⟨?_, ?_, ?_, ?_, ?_⟩
  · intro h1; rw [if_pos (yes _ h1)]
  · intro h1 h2; simp only [no _ h1, yes _ h2, if_true, Bool.false_eq_true, if_false]
  · intro h1 h2 h3
    simp only [no _ h1, no _ h2, yes _ h3, if_true, Bool.false_eq_true, if_false]
  · intro h1 h2 h3 h4
    simp only [no _ h1, no _ h2, no _ h3, yes _ h4, if_true, Bool.false_eq_true, if_false]
  · intro h1 h2 h3 h4
    simp only [no _ h1, no _ h2, no _ h3, no _ h4, Bool.false_eq_true, if_false]

/-- C7, as amended, at a custom label holding both Sad and Happy. -/
theorem getAdvice_priority_witness :
    getAdvice "Sad but Happy" = adviceHappy :=
  (getAdvice_priority "Sad but Happy" (by decide)).1 (by decide)

/-- C7 as stated fails at the empty label: it contains none of the four words,
yet the advice is the keep-tracking text, not the consistency advice. -/
theorem getAdvice_empty_label :
    (¬ "Happy".data <:+: "".data ∧ ¬ "Sad".data <:+: "".data ∧ ¬ "Angry".data <:+: "".data
        ∧ ¬ "Tired".data <:+: "".data)
      ∧ getAdvice "" = adviceKeepTracking
      ∧ getAdvice "" ≠ adviceConsistency := by
  decide

/-! ## Sorting -/

theorem insertSorted_eq_orderedInsert {α : Type} (cmp : α → α → Int) (x : α) (l : List α) :
    insertSorted cmp x l = List.orderedInsert (fun a b => cmp a b ≤ 0) x l := by
  induction l with
  | nil => rfl
  | cons y ys ih => simp only [insertSorted, List.orderedInsert, ih]

theorem jsSort_eq_insertionSort {α : Type} (cmp : α → α → Int) (l : List α) :
    jsSort cmp l = List.insertionSort (fun a b => cmp a b ≤ 0) l := by
  induction l with
  | nil => rfl
  | cons y ys ih => simp only [jsSort, List.insertionSort, ih, insertSorted_eq_orderedInsert]

theorem jsSort_perm {α : Type} (cmp : α → α → Int) (l : List α) : (jsSort cmp l).Perm l := by
  rw [jsSort_eq_insertionSort]
  exact List.perm_insertionSort _ l

/-- With numeric values only, the sorted list starts with the first element
of greatest count. -/
theorem jsSort_head (l : List (String × CountVal)) (hne : l ≠ [])
    (hnum : ∀ p ∈ l, ∃ n, p.2 = .count n) :
    ∃ top rest pre post, jsSort compareCounts l = top :: rest ∧ l = pre ++ top :: post
      ∧ (∀ p ∈ pre, countOf p.2 < countOf top.2) ∧ (∀ p ∈ post, countOf p.2 ≤ countOf top.2) := by
  induction l with
  | nil => exact absurd rfl hne
  | cons x xs ih =>
    by_cases hxs : xs = []
    · subst hxs
      exact ⟨x, [], [], [], rfl, rfl, by simp, by simp⟩
    · obtain ⟨top, rest, pre, post, hsort, hsplit, hpre, hpost⟩ :=
        ih hxs (fun p hp => hnum p (List.mem_cons_of_mem _ hp))
      obtain ⟨nx, hx⟩ := hnum x (List.mem_cons_self _ _)
      obtain ⟨nt, ht⟩ := hnum top (by rw [hsplit]; simp)
      have hcmp : compareCounts x top = (nt : Int) - (nx : Int) := by
        simp [compareCounts, hx, ht]
      by_cases hle : nt ≤ nx
      · refine ⟨x, top :: rest, [], xs, ?_, rfl, by simp, ?_⟩
        · rw [jsSort, hsort, insertSorted, if_pos (by rw [hcmp]; omega)]
        · intro p hp
          rw [hsplit] at hp
          rw [hx]
          simp only [countOf]
          rw [ht] at hpre hpost
          simp only [countOf] at hpre hpost
          rcases List.mem_append.mp hp with h | h
          · have := hpre p h; omega
          · rcases List.mem_cons.mp h with h | h
            · rw [h, ht]; simpa [countOf] using hle
            · have := hpost p h; omega
      · refine ⟨top, insertSorted compareCounts x rest, x :: pre, post, ?_, ?_, ?_, hpost⟩
        · rw [jsSort, hsort, insertSorted, if_neg (by rw [hcmp]; omega)]
        · rw [hsplit]; rfl
        · intro p hp
          rcases List.mem_cons.mp hp with h | h
          · rw [h, hx, ht]; simp only [countOf]; omega
          · exact hpre p h

/-! ## The counting object -/

theorem moodCounts_snoc (es : List MoodEntry) (e : MoodEntry) :
    moodCounts (es ++ [e]) = bump (moodCounts es) e.mood := by
  simp [moodCounts, List.foldl_append]

/-- The counting object of a sequence with plain labels: its keys are ordered by
first occurrence, are exactly the labels, and each holds its number of
occurrences. -/
theorem moodCounts_plain (es : List MoodEntry) (hplain : PlainLabels es) :
    ((moodCounts es).map Prod.fst).Pairwise
        (fun a b => (labelsOf es).indexOf a < (labelsOf es).indexOf b)
      ∧ (∀ k, k ∈ (moodCounts es).map Prod.fst ↔ k ∈ labelsOf es)
      ∧ (∀ k, k ∈ labelsOf es →
          getProp (moodCounts es) k = some (.count ((labelsOf es).count k))) := by
  induction es using List.reverseRecOn with
  | nil => simp [moodCounts, labelsOf]
  | append_singleton es e ih =>
    have hplain0 : PlainLabels es := by
      intro l hl
      exact hplain l (by simp only [labelsOf, List.map_append, List.mem_append]; exact Or.inl hl)
    obtain ⟨hK, hM, hV⟩ := ih hplain0
    have hk := hplain e.mood (by simp [labelsOf])
    have hk1 : e.mood ≠ "__proto__" := fun h => hk (by rw [h]; simp [inheritedNames])
    have hk2 : e.mood ∉ protoFunctions := fun h => hk (by simp [inheritedNames, h])
    have hlab : labelsOf (es ++ [e]) = labelsOf es ++ [e.mood] := by simp [labelsOf]
    rw [moodCounts_snoc, hlab]
    have hidx : ∀ a, a ∈ labelsOf es →
        (labelsOf es ++ [e.mood]).indexOf a = (labelsOf es).indexOf a :=
      fun a ha => List.indexOf_append_of_mem ha
    have hK0 : ((moodCounts es).map Prod.fst).Pairwise
        (fun a b => (labelsOf es ++ [e.mood]).indexOf a < (labelsOf es ++ [e.mood]).indexOf b) := by
      refine List.Pairwise.imp_of_mem ?_ hK
      intro a b ha hb hab
      rw [hidx a ((hM a).mp ha), hidx b ((hM b).mp hb)]
      exact hab
    by_cases hmem : e.mood ∈ labelsOf es
    · have hget := hV e.mood hmem
      have hb : bump (moodCounts es) e.mood
          = setProp (moodCounts es) e.mood (.count ((labelsOf es).count e.mood + 1)) := by
        simp [bump, hget]
      have hkeys : (setProp (moodCounts es) e.mood
          (CountVal.count ((labelsOf es).count e.mood + 1))).map Prod.fst
          = (moodCounts es).map Prod.fst := by
        rw [setProp_keys, if_pos ((hM _).mpr hmem)]
      rw [hb, hkeys]
      refine ⟨hK0, ?_, ?_⟩
      · intro k
        rw [hM k]
        simp only [List.mem_append, List.mem_singleton]
        constructor
        · exact Or.inl
        · rintro (h | h)
          · exact h
          · rw [h]; exact hmem
      · intro k hkmem
        rw [getProp_setProp, List.count_append]
        by_cases hke : k = e.mood
        · subst hke; simp
        · have hkl : k ∈ labelsOf es := by
            simp only [List.mem_append, List.mem_singleton] at hkmem
            rcases hkmem with h | h
            · exact h
            · exact absurd h hke
          have hke2 : ¬ e.mood = k := fun h => hke h.symm
          rw [if_neg hke, hV k hkl]
          simp [List.count_singleton, hke2]
    · have hnone : getProp (moodCounts es) e.mood = none :=
        (getProp_eq_none _ _).mpr (fun h => hmem ((hM _).mp h))
      have hb : bump (moodCounts es) e.mood = setProp (moodCounts es) e.mood (.count 1) := by
        simp [bump, hnone, hk1, hk2]
      have hkeys : (setProp (moodCounts es) e.mood (CountVal.count 1)).map Prod.fst
          = (moodCounts es).map Prod.fst ++ [e.mood] := by
        rw [setProp_keys, if_neg (fun h => hmem ((hM _).mp h))]
      rw [hb, hkeys]
      refine ⟨?_, ?_, ?_⟩
      · rw [List.pairwise_append]
        refine ⟨hK0, List.pairwise_singleton _ _, ?_⟩
        intro a ha b hb2
        rw [List.mem_singleton] at hb2
        subst hb2
        have hal := (hM a).mp ha
        rw [hidx a hal, List.indexOf_append_of_not_mem hmem]
        have := List.indexOf_lt_length.mpr hal
        simp
        omega
      · intro k
        simp only [List.mem_append, List.mem_singleton, hM k]
      · intro k hkmem
        rw [getProp_setProp, List.count_append]
        by_cases hke : k = e.mood
        · subst hke
          rw [if_pos rfl, List.count_eq_zero_of_not_mem hmem]
          simp
        · have hkl : k ∈ labelsOf es := by
            simp only [List.mem_append, List.mem_singleton] at hkmem
            rcases hkmem with h | h
            · exact h
            · exact absurd h hke
          have hke2 : ¬ e.mood = k := fun h => hke h.symm
          rw [if_neg hke, hV k hkl]
          simp [List.count_singleton, hke2]

/-- Every property of the counting object of a sequence with plain labels holds
the number of occurrences of its name. -/
theorem moodCounts_values (es : List MoodEntry) (hplain : PlainLabels es)
    (p : String × CountVal) (hp : p ∈ moodCounts es) :
    p.1 ∈ labelsOf es ∧ p.2 = .count ((labelsOf es).count p.1) := by
  obtain ⟨hK, hM, hV⟩ := moodCounts_plain es hplain
  have hnd : ((moodCounts es).map Prod.fst).Nodup := by
    unfold List.Nodup
    refine hK.imp ?_
    intro a b h e
    rw [e] at h
    exact Nat.lt_irrefl _ h
  have hl : p.1 ∈ labelsOf es := (hM p.1).mp (List.mem_map_of_mem Prod.fst hp)
  have h1 := getProp_of_mem _ hnd p hp
  rw [hV p.1 hl] at h1
  exact ⟨hl, (Option.some.inj h1).symm⟩

/-- With plain labels the values of the counting object sum to the number of
entries. -/
theorem moodCounts_sum (es : List MoodEntry) (hplain : PlainLabels es) :
    ((moodCounts es).map (fun p => countOf p.2)).sum = es.length := by
  obtain ⟨hK, hM, _⟩ := moodCounts_plain es hplain
  have hnd : ((moodCounts es).map Prod.fst).Nodup := by
    unfold List.Nodup
    refine hK.imp ?_
    intro a b h e
    rw [e] at h
    exact Nat.lt_irrefl _ h
  have hperm : ((moodCounts es).map Prod.fst).Perm (labelsOf es).dedup :=
    (List.perm_ext_iff_of_nodup hnd (List.nodup_dedup _)).mpr
      (fun k => by rw [hM k, List.mem_dedup])
  have hmap : (moodCounts es).map (fun p => countOf p.2)
      = ((moodCounts es).map Prod.fst).map (fun k => (labelsOf es).count k) := by
    rw [List.map_map]
    apply List.map_congr_left
    intro p hp
    simp only [Function.comp, (moodCounts_values es hplain p hp).2, countOf]
  rw [hmap, (hperm.map _).sum_eq, List.sum_map_count_dedup_eq_length]
  simp [labelsOf]

/-- With plain labels the label-to-count mapping does not depend on the order
of the entries. -/
theorem moodCounts_perm (es1 es2 : List MoodEntry) (hperm : es1.Perm es2)
    (hplain : PlainLabels es1) (k : String) :
    getProp (moodCounts es1) k = getProp (moodCounts es2) k := by
  have hl : (labelsOf es1).Perm (labelsOf es2) := hperm.map _
  have hplain2 : PlainLabels es2 := fun l h => hplain l (hl.mem_iff.mpr h)
  obtain ⟨_, hM1, hV1⟩ := moodCounts_plain es1 hplain
  obtain ⟨_, hM2, hV2⟩ := moodCounts_plain es2 hplain2
  by_cases hk : k ∈ labelsOf es1
  · rw [hV1 k hk, hV2 k (hl.mem_iff.mp hk), hl.count_eq]
  · rw [(getProp_eq_none _ _).mpr (fun h => hk ((hM1 k).mp h)),
      (getProp_eq_none _ _).mpr (fun h => hk (hl.mem_iff.mpr ((hM2 k).mp h)))]

/-- C8 fails on labels that name properties inherited from `Object.prototype`:
after appends with the labels `__proto__` and `Happy` the counting object has
the single key `Happy`, and after two appends with the label `constructor` it
holds a string under that key instead of the number of occurrences. -/
theorem moodCounts_inherited_labels :
    moodCounts (appendAll [(some "__proto__", "5", "", "2024-01-01T08:00:00.000Z"),
        (some "Happy", "5", "", "2024-01-02T09:00:00.000Z")] freshState).moods
        = [("Happy", .count 1)]
      ∧ moodCounts (appendAll [(some "constructor", "5", "", "2024-01-01T08:00:00.000Z"),
        (some "constructor", "5", "", "2024-01-02T09:00:00.000Z")] freshState).moods
        = [("constructor", .text 2)] := by
  decide

/-! ## Array-index property names -/

theorem isDigit_bounds (c : Char) (h : c.isDigit = true) : 48 ≤ c.toNat ∧ c.toNat ≤ 57 := by
  simp only [Char.isDigit, Bool.and_eq_true, decide_eq_true_eq] at h
  obtain ⟨h1, h2⟩ := h
  have e1 : (48 : UInt32) ≤ c.val := h1
  rw [UInt32.le_def] at e1 h2
  exact ⟨e1, h2⟩

theorem char_eq_of_toNat_eq (c d : Char) (h : c.toNat = d.toNat) : c = d := by
  rw [← Char.ofNat_toNat c, ← Char.ofNat_toNat d, h]

theorem digitsVal_eq_ofDigits (ds : List Char) :
    digitsVal ds = Nat.ofDigits 10 (ds.map digitValue).reverse := by
  rw [Nat.ofDigits_eq_foldr, List.foldr_reverse, List.foldl_map]
  unfold digitsVal
  congr 1
  funext n d
  simp only [digitValue, Nat.cast_id]
  omega

theorem map_digitValue_inj (l1 l2 : List Char) (h1 : ∀ c ∈ l1, c.isDigit = true)
    (h2 : ∀ c ∈ l2, c.isDigit = true) (h : l1.map digitValue = l2.map digitValue) : l1 = l2 := by
  induction l1 generalizing l2 with
  | nil => cases l2 with
    | nil => rfl
    | cons b l2 => simp at h
  | cons a l1 ih => cases l2 with
    | nil => simp at h
    | cons b l2 =>
      simp only [List.map_cons, List.cons.injEq] at h
      have ha := isDigit_bounds a (h1 a (List.mem_cons_self _ _))
      have hb := isDigit_bounds b (h2 b (List.mem_cons_self _ _))
      have hab : a = b := char_eq_of_toNat_eq a b (by unfold digitValue at h; omega)
      rw [hab, ih l2 (fun c hc => h1 c (List.mem_cons_of_mem _ hc))
        (fun c hc => h2 c (List.mem_cons_of_mem _ hc)) h.2]

/-- The digits of a canonical numeral are the digits of its value. -/
theorem digits_of_canonical (c : Char) (cs : List Char) (hc : c ≠ '0')
    (hd : ∀ d ∈ c :: cs, d.isDigit = true) :
    Nat.digits 10 (digitsVal (c :: cs)) = ((c :: cs).map digitValue).reverse := by
  rw [digitsVal_eq_ofDigits]
  apply Nat.digits_ofDigits 10 (by norm_num)
  · intro l hl
    rw [List.mem_reverse, List.mem_map] at hl
    obtain ⟨d, hdm, rfl⟩ := hl
    have := isDigit_bounds d (hd d hdm)
    unfold digitValue; omega
  · intro hne
    have hlast : ((c :: cs).map digitValue).reverse.getLast hne = digitValue c := by
      simp [List.getLast_reverse]
    rw [hlast]
    have hb := isDigit_bounds c (hd c (List.mem_cons_self _ _))
    intro h0
    apply hc
    apply char_eq_of_toNat_eq
    unfold digitValue at h0
    show c.toNat = 48
    omega

/-- What `arrayIndex` accepts: the numeral `0`, or digits without a leading
zero. -/
theorem arrayIndex_some (k : String) (i : Nat) (h : arrayIndex k = some i) :
    (k.data = ['0'] ∧ i = 0)
      ∨ ∃ c cs, k.data = c :: cs ∧ c ≠ '0' ∧ (∀ d ∈ c :: cs, d.isDigit = true)
          ∧ i = digitsVal (c :: cs) := by
  unfold arrayIndex at h
  split at h
  · cases h
  · rename_i heq
    left
    exact ⟨heq, by cases h; rfl⟩
  · rename_i c cs _ heq
    split at h
    · rename_i hcond
      right
      refine ⟨c, cs, heq, hcond.1, ?_, by cases h; rfl⟩
      intro d hdm
      have := hcond.2.1
      rw [List.all_eq_true] at this
      exact this d hdm
    · cases h

theorem arrayIndex_inj (a b : String) (i : Nat) (ha : arrayIndex a = some i)
    (hb : arrayIndex b = some i) : a = b := by
  have key : ∀ (c : Char) (cs : List Char), c ≠ '0' → (∀ d ∈ c :: cs, d.isDigit = true) →
      digitsVal (c :: cs) ≠ 0 := by
    intro c cs hc hd h0
    have := digits_of_canonical c cs hc hd
    rw [h0] at this
    simp at this
  rcases arrayIndex_some a i ha with ⟨ha1, ha2⟩ | ⟨c, cs, ha1, hc, hd, ha2⟩
  · rcases arrayIndex_some b i hb with ⟨hb1, _⟩ | ⟨c2, cs2, hb1, hc2, hd2, hb2⟩
    · exact String.ext (by rw [ha1, hb1])
    · exact absurd (hb2.symm.trans ha2) (key c2 cs2 hc2 hd2)
  · rcases arrayIndex_some b i hb with ⟨hb1, hb2⟩ | ⟨c2, cs2, hb1, hc2, hd2, hb2⟩
    · exact absurd (ha2.symm.trans hb2) (key c cs hc hd)
    · have e1 := digits_of_canonical c cs hc hd
      have e2 := digits_of_canonical c2 cs2 hc2 hd2
      rw [← ha2] at e1
      rw [← hb2] at e2
      have e3 : (c :: cs).map digitValue = (c2 :: cs2).map digitValue :=
        List.reverse_injective (e1.symm.trans e2)
      have e4 := map_digitValue_inj _ _ hd hd2 e3
      exact String.ext (by rw [ha1, hb1, e4])

/-! ## Enumeration order of the counting object -/

theorem insertIndexed_eq_orderedInsert {α : Type} (p : String × α) (l : List (String × α)) :
    insertIndexed p l = List.orderedInsert
      (fun a b : String × α => (arrayIndex a.1).getD 0 ≤ (arrayIndex b.1).getD 0) p l := by
  induction l with
  | nil => rfl
  | cons y ys ih => simp only [insertIndexed, List.orderedInsert, ih]

theorem sortIndexed_eq_insertionSort {α : Type} (l : List (String × α)) :
    sortIndexed l = List.insertionSort
      (fun a b : String × α => (arrayIndex a.1).getD 0 ≤ (arrayIndex b.1).getD 0) l := by
  induction l with
  | nil => rfl
  | cons y ys ih =>
    simp only [sortIndexed, List.insertionSort, ih, insertIndexed_eq_orderedInsert]

theorem sortIndexed_perm {α : Type} (l : List (String × α)) : (sortIndexed l).Perm l := by
  rw [sortIndexed_eq_insertionSort]
  exact List.perm_insertionSort _ l

theorem sortIndexed_sorted {α : Type} (l : List (String × α)) :
    (sortIndexed l).Pairwise
      (fun a b : String × α => (arrayIndex a.1).getD 0 ≤ (arrayIndex b.1).getD 0) := by
  rw [sortIndexed_eq_insertionSort]
  haveI : IsTotal (String × α)
      (fun a b : String × α => (arrayIndex a.1).getD 0 ≤ (arrayIndex b.1).getD 0) :=
    ⟨fun a b => Nat.le_total _ _⟩
  haveI : IsTrans (String × α)
      (fun a b : String × α => (arrayIndex a.1).getD 0 ≤ (arrayIndex b.1).getD 0) :=
    ⟨fun a b c h1 h2 => Nat.le_trans h1 h2⟩
  exact List.sorted_insertionSort _ l

theorem ownEntries_perm {α : Type} (c : List (String × α)) : (ownEntries c).Perm c := by
  unfold ownEntries
  refine (List.Perm.append_right _ (sortIndexed_perm _)).trans ?_
  have h := List.filter_append_perm (fun p : String × α => (arrayIndex p.1).isSome) c
  convert h using 2

theorem isSome_false_none (o : Option Nat) (h : (!o.isSome) = true) : o = none := by
  cases o with
  | none => rfl
  | some v => simp at h

/-- The enumeration of the counting object of a sequence follows
`EnumeratedBefore`. -/
theorem ownEntries_order {α : Type} (es : List MoodEntry) (c : List (String × α))
    (hK : (c.map Prod.fst).Pairwise
      (fun a b => (labelsOf es).indexOf a < (labelsOf es).indexOf b)) :
    ((ownEntries c).map Prod.fst).Pairwise (EnumeratedBefore es) := by
  have hnd : (c.map Prod.fst).Nodup := hK.imp (fun h => Nat.ne_of_lt h |> fun hne e => hne (by rw [e]))
  unfold ownEntries
  rw [List.map_append, List.pairwise_append]
  refine ⟨?_, ?_, ?_⟩
  · -- the array indices, ascending
    have hS := sortIndexed_sorted (c.filter (fun p => (arrayIndex p.1).isSome))
    have hSnd : ((sortIndexed (c.filter (fun p => (arrayIndex p.1).isSome))).map Prod.fst).Nodup := by
      have hp := (sortIndexed_perm (c.filter (fun p => (arrayIndex p.1).isSome))).map Prod.fst
      rw [hp.nodup_iff]
      exact hnd.sublist ((List.filter_sublist _).map _)
    rw [List.pairwise_map]
    rw [List.Nodup, List.pairwise_map] at hSnd
    refine List.Pairwise.imp_of_mem ?_ (hS.and hSnd)
    intro p q hp hq hpq
    have hp2 : p ∈ c.filter (fun p => (arrayIndex p.1).isSome) := (sortIndexed_perm _).mem_iff.mp hp
    have hq2 : q ∈ c.filter (fun p => (arrayIndex p.1).isSome) := (sortIndexed_perm _).mem_iff.mp hq
    have hp3 := (List.mem_filter.mp hp2).2
    have hq3 := (List.mem_filter.mp hq2).2
    obtain ⟨i, hi⟩ := Option.isSome_iff_exists.mp hp3
    obtain ⟨j, hj⟩ := Option.isSome_iff_exists.mp hq3
    unfold EnumeratedBefore
    rw [hi, hj]
    have hle := hpq.1
    rw [hi, hj] at hle
    simp only [Option.getD_some] at hle
    show i < j
    rcases Nat.lt_or_eq_of_le hle with h | h
    · exact h
    · exact absurd (arrayIndex_inj p.1 q.1 j (h ▸ hi) hj) hpq.2
  · -- the other names, by first occurrence
    rw [List.pairwise_map]
    rw [List.pairwise_map] at hK
    refine List.Pairwise.imp_of_mem ?_ (hK.sublist (List.filter_sublist _))
    intro p q hp hq hpq
    have hp3 := (List.mem_filter.mp hp).2
    have hq3 := (List.mem_filter.mp hq).2
    have hp4 := isSome_false_none _ hp3
    have hq4 := isSome_false_none _ hq3
    unfold EnumeratedBefore
    rw [hp4, hq4]
    exact hpq
  · intro a ha b hb
    obtain ⟨p, hp, rfl⟩ := List.mem_map.mp ha
    obtain ⟨q, hq, rfl⟩ := List.mem_map.mp hb
    have hp2 := (List.mem_filter.mp ((sortIndexed_perm _).mem_iff.mp hp)).2
    have hq3 := (List.mem_filter.mp hq).2
    have hq4 := isSome_false_none _ hq3
    obtain ⟨i, hi⟩ := Option.isSome_iff_exists.mp hp2
    unfold EnumeratedBefore
    rw [hi, hq4]
    trivial

/-! ## Top mood -/

/-- C6, as amended: the empty sequence gives the sentinel; for a non-empty
sequence whose labels are no names inherited from `Object.prototype`, the result
is a label of the sequence of greatest count, and among the labels of greatest
count it is the first in the enumeration order of the counting object (array
indices ascending, then first occurrence). -/
theorem getTopMood_spec :
    getTopMood [] = .ok "N/A"
      ∧ ∀ es : List MoodEntry, es ≠ [] → PlainLabels es →
        ∃ top, getTopMood es = .ok top ∧ top ∈ labelsOf es
          ∧ (∀ l ∈ labelsOf es, (labelsOf es).count l ≤ (labelsOf es).count top)
          ∧ (∀ l ∈ labelsOf es, l ≠ top → (labelsOf es).count l = (labelsOf es).count top →
              EnumeratedBefore es top l) := by
  refine ⟨rfl, ?_⟩
  intro es hne hplain
  obtain ⟨hK, hM, hV⟩ := moodCounts_plain es hplain
  have hperm := ownEntries_perm (moodCounts es)
  have hvals : ∀ p ∈ ownEntries (moodCounts es),
      p.1 ∈ labelsOf es ∧ p.2 = .count ((labelsOf es).count p.1) :=
    fun p hp => moodCounts_values es hplain p (hperm.mem_iff.mp hp)
  have hmemE : ∀ l ∈ labelsOf es,
      (l, CountVal.count ((labelsOf es).count l)) ∈ ownEntries (moodCounts es) :=
    fun l hl => hperm.mem_iff.mpr (getProp_some_mem _ _ _ (hV l hl))
  have hEne : ownEntries (moodCounts es) ≠ [] := by
    obtain ⟨e, es2, rfl⟩ := List.exists_cons_of_ne_nil hne
    exact List.ne_nil_of_mem (hmemE e.mood (by simp [labelsOf]))
  obtain ⟨top, rest, pre, post, hsort, hsplit, hpre, hpost⟩ :=
    jsSort_head (ownEntries (moodCounts es)) hEne (fun p hp => ⟨_, (hvals p hp).2⟩)
  have htop := hvals top (by rw [hsplit]; simp)
  have hcount : countOf top.2 = (labelsOf es).count top.1 := by rw [htop.2]; rfl
  have hlen : ¬ es.length = 0 := fun h => hne (List.length_eq_zero.mp h)
  refine ⟨top.1, ?_, htop.1, ?_, ?_⟩
  · simp only [getTopMood, if_neg hlen, hsort]
  · intro l hl
    have hm := hmemE l hl
    rw [hsplit] at hm
    rw [← hcount]
    rcases List.mem_append.mp hm with h | h
    · exact Nat.le_of_lt (hpre _ h)
    · rcases List.mem_cons.mp h with h | h
      · rw [← h]; exact Nat.le_refl _
      · exact hpost _ h
  · intro l hl hne2 heq
    have hm := hmemE l hl
    rw [hsplit] at hm
    have hpostmem : (l, CountVal.count ((labelsOf es).count l)) ∈ post := by
      rcases List.mem_append.mp hm with h | h
      · have := hpre _ h
        rw [hcount] at this
        simp only [countOf] at this
        omega
      · rcases List.mem_cons.mp h with h | h
        · exact absurd (congrArg Prod.fst h) hne2
        · exact h
    have hord := ownEntries_order es (moodCounts es) hK
    rw [hsplit, List.map_append, List.map_cons, List.pairwise_append] at hord
    exact (List.pairwise_cons.mp hord.2.1).1 l (List.mem_map_of_mem Prod.fst hpostmem)

/-- C6, as amended, at a log where two labels tie: the one seen first wins. -/
theorem getTopMood_spec_witness :
    getTopMood [⟨"Calm", "5", "", "2024-01-01T08:00:00.000Z"⟩,
        ⟨"Sad", "4", "", "2024-01-02T09:00:00.000Z"⟩,
        ⟨"Sad", "6", "", "2024-01-03T20:00:00.000Z"⟩,
        ⟨"Calm", "5", "", "2024-01-04T21:00:00.000Z"⟩] = .ok "Calm" := by
  obtain ⟨top, h1, h2, _, h4⟩ := getTopMood_spec.2
    [⟨"Calm", "5", "", "2024-01-01T08:00:00.000Z"⟩,
      ⟨"Sad", "4", "", "2024-01-02T09:00:00.000Z"⟩,
      ⟨"Sad", "6", "", "2024-01-03T20:00:00.000Z"⟩,
      ⟨"Calm", "5", "", "2024-01-04T21:00:00.000Z"⟩] (by decide) (by
        intro l hl
        simp only [labelsOf, List.map_cons, List.map_nil, List.mem_cons, List.mem_singleton,
          List.not_mem_nil, or_false] at hl
        rcases hl with rfl | rfl | rfl | rfl <;> decide)
  have hcases : top = "Calm" ∨ top = "Sad" := by
    simp only [labelsOf, List.map_cons, List.map_nil, List.mem_cons, List.mem_singleton,
      List.not_mem_nil, or_false] at h2
    rcases h2 with h | h | h | h
    · exact Or.inl h
    · exact Or.inr h
    · exact Or.inr h
    · exact Or.inl h
  rcases hcases with h | h
  · rw [h] at h1; exact h1
  · exfalso
    rw [h] at h4
    have hb := h4 "Calm" (by decide) (by decide) (by decide)
    have e1 : arrayIndex "Sad" = none := by decide
    have e2 : arrayIndex "Calm" = none := by decide
    unfold EnumeratedBefore at hb
    rw [e1, e2] at hb
    revert hb
    decide

/-- C6 as stated fails: the labels `Happy` and `7` both occur once, `Happy`
first, yet the result is `7`, because an array-index name is enumerated before
the other names. -/
theorem getTopMood_index_label_first :
    getTopMood [⟨"Happy", "5", "", "2024-01-01T08:00:00.000Z"⟩,
        ⟨"7", "5", "", "2024-01-02T09:00:00.000Z"⟩] = .ok "7"
      ∧ (labelsOf [⟨"Happy", "5", "", "2024-01-01T08:00:00.000Z"⟩,
          ⟨"7", "5", "", "2024-01-02T09:00:00.000Z"⟩]).count "Happy" = 1
      ∧ (labelsOf [⟨"Happy", "5", "", "2024-01-01T08:00:00.000Z"⟩,
          ⟨"7", "5", "", "2024-01-02T09:00:00.000Z"⟩]).count "7" = 1
      ∧ (labelsOf [⟨"Happy", "5", "", "2024-01-01T08:00:00.000Z"⟩,
          ⟨"7", "5", "", "2024-01-02T09:00:00.000Z"⟩]).indexOf "Happy"
        < (labelsOf [⟨"Happy", "5", "", "2024-01-01T08:00:00.000Z"⟩,
          ⟨"7", "5", "", "2024-01-02T09:00:00.000Z"⟩]).indexOf "7" := by
  decide

theorem bump_ne_nil (c : List (String × CountVal)) (k : String) (hk : k ≠ "__proto__") :
    bump c k ≠ [] := by
  unfold bump
  split
  · exact setProp_ne_nil _ _ _
  · exact setProp_ne_nil _ _ _
  · rw [if_neg hk]
    split <;> exact setProp_ne_nil _ _ _

/-- Without the label `__proto__`, `getTopMood` returns. -/
theorem getTopMood_returns (arr : List MoodEntry) (h : ∀ m ∈ arr, m.mood ≠ "__proto__") :
    ∃ top, getTopMood arr = .ok top := by
  induction arr using List.reverseRecOn with
  | nil => exact ⟨"N/A", rfl⟩
  | append_singleton es e _ =>
    have hc : moodCounts (es ++ [e]) ≠ [] := by
      rw [moodCounts_snoc]
      exact bump_ne_nil _ _ (h e (by simp))
    have hs : jsSort compareCounts (ownEntries (moodCounts (es ++ [e]))) ≠ [] := by
      intro h0
      have hp := (jsSort_perm compareCounts (ownEntries (moodCounts (es ++ [e])))).trans
        (ownEntries_perm _)
      rw [h0] at hp
      exact hc hp.symm.eq_nil
    obtain ⟨top, rest, htop⟩ := List.exists_cons_of_ne_nil hs
    refine ⟨top.1, ?_⟩
    simp [getTopMood, htop]

/-! ## Forecast -/

/-- The gate of the forecast on sequences without the label `__proto__`: below
five entries the locked result with the count of entries still needed, from five
entries on the full result. -/
theorem generateForecast_gate (clock : Clock) (moods : List MoodEntry) :
    (moods.length < 5 →
        generateForecast clock moods = .ok (.locked (5 - moods.length))
          ∧ 1 ≤ 5 - moods.length ∧ 5 - moods.length ≤ 5)
      ∧ (5 ≤ moods.length → (∀ m ∈ moods, m.mood ≠ "__proto__") →
        ∃ weekendVibe advice,
          generateForecast clock moods = .ok (.ready (timeVibe clock moods) weekendVibe advice)) := by
  constructor
  · intro h
    refine ⟨by simp [generateForecast, h], by omega, by omega⟩
  · intro h5 hp
    obtain ⟨w, hw⟩ := getTopMood_returns (moods.filter (isWeekend clock))
      (fun m hm => hp m (List.mem_filter.mp hm).1)
    obtain ⟨o, ho⟩ := getTopMood_returns moods hp
    refine ⟨w, getAdvice o, ?_⟩
    simp [generateForecast, Nat.not_lt.mpr h5, hw, ho]

/-- The morning filter keeps exactly the entries whose own time reads an hour
from 5 up to, not including, 12. -/
theorem isMorning_iff (clock : Clock) (m : MoodEntry) :
    isMorning clock m = true ↔ ∃ h, clock.getHours m.time = some h ∧ 5 ≤ h ∧ h < 12 := by
  unfold isMorning
  cases clock.getHours m.time <;> simp

/-- The night filter keeps exactly the entries whose own time reads an hour
from 18 on or below 5. -/
theorem isNight_iff (clock : Clock) (m : MoodEntry) :
    isNight clock m = true ↔ ∃ h, clock.getHours m.time = some h ∧ (18 ≤ h ∨ h < 5) := by
  unfold isNight
  cases clock.getHours m.time <;> simp

/-- The two filters at the ends of their ranges: hours 5 and 11 are morning, 12
and 17 are neither, 18, 23, 0 and 4 are night. -/
theorem hour_ranges_at_boundaries :
    ([⟨"Happy", "5", "", "2024-01-01T05:00:00.000Z"⟩,
        ⟨"Happy", "5", "", "2024-01-01T11:59:59.999Z"⟩,
        ⟨"Happy", "5", "", "2024-01-01T12:00:00.000Z"⟩,
        ⟨"Happy", "5", "", "2024-01-01T17:59:59.999Z"⟩,
        ⟨"Happy", "5", "", "2024-01-01T18:00:00.000Z"⟩,
        ⟨"Happy", "5", "", "2024-01-01T23:00:00.000Z"⟩,
        ⟨"Happy", "5", "", "2024-01-01T00:00:00.000Z"⟩,
        ⟨"Happy", "5", "", "2024-01-01T04:59:59.999Z"⟩].map
          (fun m => (isMorning utcClock m, isNight utcClock m)))
      = [(true, false), (true, false), (false, false), (false, false), (false, true),
          (false, true), (false, true), (false, true)] := by
  decide

/-- The schedule type of line 110, on every sequence: the early-bird label
exactly when the entries whose own hour `h` has `18 ≤ h` or `h < 5` are at most
as many as those with `5 ≤ h < 12`, the night-owl label otherwise; ties and
empty counts give the early-bird label; it depends on the times of the entries
alone; every forecast returned for five or more entries carries it, and one is
returned whenever no entry is labelled `__proto__`. -/
theorem timeVibe_rule (clock : Clock) (moods : List MoodEntry) :
    (timeVibe clock moods = "Early Bird 🌅" ↔
        moods.countP (fun m => (clock.getHours m.time).any (fun h => decide (18 ≤ h ∨ h < 5)))
          ≤ moods.countP (fun m => (clock.getHours m.time).any (fun h => decide (5 ≤ h ∧ h < 12))))
      ∧ (timeVibe clock moods = "Night Owl 🦉" ↔
        moods.countP (fun m => (clock.getHours m.time).any (fun h => decide (5 ≤ h ∧ h < 12)))
          < moods.countP (fun m => (clock.getHours m.time).any (fun h => decide (18 ≤ h ∨ h < 5))))
      ∧ (∀ moods2 : List MoodEntry, moods2.map MoodEntry.time = moods.map MoodEntry.time →
          timeVibe clock moods2 = timeVibe clock moods)
      ∧ (5 ≤ moods.length → ∀ f, generateForecast clock moods = .ok f →
          ∃ weekendVibe advice, f = .ready (timeVibe clock moods) weekendVibe advice)
      ∧ (5 ≤ moods.length → (∀ m ∈ moods, m.mood ≠ "__proto__") → ∃ weekendVibe advice,
          generateForecast clock moods = .ok (.ready (timeVibe clock moods) weekendVibe advice)) := by
  have eM : isMorning clock
      = fun m : MoodEntry => (clock.getHours m.time).any (fun h => decide (5 ≤ h ∧ h < 12)) := by
    funext m
    unfold isMorning
    cases clock.getHours m.time <;> simp [Option.any]
  have eN : isNight clock
      = fun m : MoodEntry => (clock.getHours m.time).any (fun h => decide (18 ≤ h ∨ h < 5)) := by
    funext m
    unfold isNight
    cases clock.getHours m.time <;> simp [Option.any]
  have hV : ∀ l : List MoodEntry, timeVibe clock l
      = if l.countP (fun m => (clock.getHours m.time).any (fun h => decide (18 ≤ h ∨ h < 5)))
          ≤ l.countP (fun m => (clock.getHours m.time).any (fun h => decide (5 ≤ h ∧ h < 12)))
        then "Early Bird 🌅" else "Night Owl 🦉" := by
    intro l
    unfold timeVibe
    rw [eM, eN, List.countP_eq_length_filter, List.countP_eq_length_filter]
  refine ⟨?_, ?_, ?_, ?_, fun h5 => (generateForecast_gate clock moods).2 h5⟩
  · rw [hV]
    split
    · rename_i h; exact ⟨fun _ => h, fun _ => rfl⟩
    · rename_i h; exact ⟨fun e => absurd e (by decide), fun e => absurd e h⟩
  · rw [hV]
    split
    · rename_i h
      exact ⟨fun e => absurd e (by decide), fun e => absurd h (Nat.not_le.mpr e)⟩
    · rename_i h; exact ⟨fun _ => Nat.not_le.mp h, fun _ => rfl⟩
  · intro moods2 hmap
    have key : ∀ (p : String → Bool) (l1 l2 : List MoodEntry),
        l1.map MoodEntry.time = l2.map MoodEntry.time →
        l1.countP (fun m => p m.time) = l2.countP (fun m => p m.time) := by
      intro p l1 l2 h
      have e : ∀ l : List MoodEntry,
          l.countP (fun m => p m.time) = (l.map MoodEntry.time).countP p := by
        intro l
        rw [List.countP_map]
        rfl
      rw [e l1, e l2, h]
    rw [hV, hV,
      key (fun t => (clock.getHours t).any (fun h => decide (18 ≤ h ∨ h < 5))) moods2 moods hmap,
      key (fun t => (clock.getHours t).any (fun h => decide (5 ≤ h ∧ h < 12))) moods2 moods hmap]
  · intro h5 f hf
    unfold generateForecast at hf
    rw [if_neg (by omega)] at hf
    split at hf
    · cases hf
    · split at hf
      · cases hf
      · cases hf; exact ⟨_, _, rfl⟩

/-- The scenario of the specification, with its own labels: weekday entries at
hours 8, 9, 20, 21, 22 give the night-owl label. -/
theorem scenario_night_owl :
    generateForecast utcClock
        [⟨"Happy", "5", "", "2024-01-01T08:00:00.000Z"⟩,
         ⟨"Happy", "5", "", "2024-01-02T09:00:00.000Z"⟩,
         ⟨"Sad", "5", "", "2024-01-03T20:00:00.000Z"⟩,
         ⟨"Sad", "5", "", "2024-01-04T21:00:00.000Z"⟩,
         ⟨"Tired", "5", "", "2024-01-05T22:00:00.000Z"⟩]
      = .ok (.ready "Night Owl 🦉" "N/A" adviceHappy) := by
  decide

/-- C5 fails on five weekday entries at hours 8, 9, 20, 21, 22 that are
labelled `__proto__`: two are morning entries and three are night entries, the
constant of line 110 is the night-owl label, yet `generateForecast` raises a
`TypeError` in `getTopMood` and no schedule type reaches the card.  The same
happens when only the entries of the weekend carry that label. -/
theorem scheduleType_proto_labels :
    (appendAll [(some "__proto__", "6", "", "2024-03-04T08:00:00.000Z"),
        (some "__proto__", "6", "", "2024-03-05T09:00:00.000Z"),
        (some "__proto__", "6", "", "2024-03-06T20:00:00.000Z"),
        (some "__proto__", "6", "", "2024-03-07T21:00:00.000Z"),
        (some "__proto__", "6", "", "2024-03-08T22:00:00.000Z")] freshState).moods.map
          (fun m => (utcClock.getHours m.time, utcClock.getDay m.time))
        = [(some 22, some 5), (some 21, some 4), (some 20, some 3), (some 9, some 2),
            (some 8, some 1)]
      ∧ timeVibe utcClock
          (appendAll [(some "__proto__", "6", "", "2024-03-04T08:00:00.000Z"),
            (some "__proto__", "6", "", "2024-03-05T09:00:00.000Z"),
            (some "__proto__", "6", "", "2024-03-06T20:00:00.000Z"),
            (some "__proto__", "6", "", "2024-03-07T21:00:00.000Z"),
            (some "__proto__", "6", "", "2024-03-08T22:00:00.000Z")] freshState).moods
        = "Night Owl 🦉"
      ∧ generateForecast utcClock
          (appendAll [(some "__proto__", "6", "", "2024-03-04T08:00:00.000Z"),
            (some "__proto__", "6", "", "2024-03-05T09:00:00.000Z"),
            (some "__proto__", "6", "", "2024-03-06T20:00:00.000Z"),
            (some "__proto__", "6", "", "2024-03-07T21:00:00.000Z"),
            (some "__proto__", "6", "", "2024-03-08T22:00:00.000Z")] freshState).moods
        = .error .typeError
      ∧ generateForecast utcClock
          (appendAll [(some "Happy", "6", "", "2024-03-04T08:00:00.000Z"),
            (some "Happy", "6", "", "2024-03-05T09:00:00.000Z"),
            (some "Sad", "6", "", "2024-03-06T20:00:00.000Z"),
            (some "Sad", "6", "", "2024-03-07T21:00:00.000Z"),
            (some "Tired", "6", "", "2024-03-08T22:00:00.000Z"),
            (some "__proto__", "6", "", "2024-03-09T10:00:00.000Z")] freshState).moods
        = .error .typeError := by
  decide

/-- C4 fails after five appends with the label `__proto__`: the counting object
stays empty, `Object.entries(counts)[0]` is `undefined`, and `generateForecast`
raises a `TypeError` instead of returning the full result. -/
theorem generateForecast_proto_labels :
    generateForecast utcClock
        (appendAll [(some "__proto__", "5", "", "2024-01-01T08:00:00.000Z"),
          (some "__proto__", "5", "", "2024-01-02T09:00:00.000Z"),
          (some "__proto__", "5", "", "2024-01-03T20:00:00.000Z"),
          (some "__proto__", "5", "", "2024-01-04T21:00:00.000Z"),
          (some "__proto__", "5", "", "2024-01-05T22:00:00.000Z")] freshState).moods
      = .error .typeError := by
  decide

end Moodmap
